import Mathlib

/-!
Verification of the URL/form-state synchronization core of `rhf-sync-url`
(`src/index.ts`).

The library's own code (`safeJsonParse`, `safeSerialize`,
`searchParamsToString`, and the two effects of `useSyncUrl`) is embedded
shallowly below.  The host-platform primitives that the code calls are
modelled executably:

* `JSON.parse` / `JSON.stringify` are modelled by `jsonParse` / `printJ`
  over the inductive value type `Jv`.  JavaScript numbers are modelled in
  exact canonical decimal form (`JNum`); the model's number grammar covers
  plain decimals (no exponent spellings) and the printer produces exactly
  the canonical spelling `JSON.stringify` produces for such numbers.
  Lean `Char`/`String` stand in for JavaScript strings (so lone UTF-16
  surrogates are outside the model).
* `URLSearchParams` is modelled by an ordered association list
  `Params = List (String × String)` with the standard `delete` (remove all
  entries of the key), `set` (overwrite the first entry in place, drop the
  rest, append if absent) and form-url-encoded `toString`.

JavaScript objects cannot carry duplicate keys and carry exact doubles, so
the submodel of `Jv` values that corresponds to a reachable JavaScript
value is cut out by the executable predicate `wfJ` (canonical numbers,
no duplicate keys in any object).
-/

/-! ### Exact decimal numbers

A finite JavaScript number, in exact scaled-decimal form: the denoted value
is `mant / 10 ^ frac`, and `frac` is the count of digits printed after the
decimal point.  `wfNum` carves out the canonical forms (`String(n)` prints
no trailing fractional zero). -/

structure JNum where
  mant : Int
  frac : Nat
deriving DecidableEq

def wfNum (n : JNum) : Bool := n.frac == 0 || n.mant.natAbs % 10 != 0

/-- Decimal digit character of `n % 10`. -/
def digChar (n : Nat) : Char := Char.ofNat (48 + n % 10)

/-- Numeric value of a digit character. -/
def digVal (c : Char) : Nat := c.toNat - 48

/-- Decimal digit characters of `n`, most significant first; `fuel` bounds the
digit count (structural recursion, so the kernel can evaluate it). -/
def natCharsAux : Nat → Nat → List Char
  | 0, _ => []
  | fuel + 1, n => if n < 10 then [digChar n] else natCharsAux fuel (n / 10) ++ [digChar n]

/-- Decimal digit characters of `n`, most significant first. -/
def natChars (n : Nat) : List Char := natCharsAux (n + 1) n

/-- Numeric value of a digit string (most significant first). -/
def digitsVal (l : List Char) : Nat := l.foldl (fun a c => a * 10 + digVal c) 0

theorem digChar_isDigit (n : Nat) : (digChar n).isDigit = true := by
  have h : n % 10 < 10 := Nat.mod_lt _ (by omega)
  unfold digChar
  set k := n % 10 with hk
  interval_cases k <;> decide

theorem digVal_digChar (n : Nat) : digVal (digChar n) = n % 10 := by
  have h : n % 10 < 10 := Nat.mod_lt _ (by omega)
  unfold digChar digVal
  set k := n % 10 with hk
  interval_cases k <;> decide

theorem digChar_eq_zeroChar (n : Nat) : digChar n = '0' ↔ n % 10 = 0 := by
  constructor
  · intro h
    have h2 := digVal_digChar n
    rw [h] at h2
    simpa [digVal] using h2.symm
  · intro h
    unfold digChar
    rw [h]

theorem digitsVal_from (l : List Char) :
    ∀ a : Nat, l.foldl (fun a c => a * 10 + digVal c) a = a * 10 ^ l.length + digitsVal l := by
  induction l with
  | nil => intro a; simp [digitsVal]
  | cons c t ih =>
    intro a
    have h1 := ih (a * 10 + digVal c)
    have h2 := ih (digVal c)
    simp only [List.foldl_cons, List.length_cons, digitsVal, Nat.zero_mul, Nat.zero_add] at *
    rw [h1, h2]
    ring

theorem digitsVal_append (a b : List Char) :
    digitsVal (a ++ b) = digitsVal a * 10 ^ b.length + digitsVal b := by
  unfold digitsVal
  rw [List.foldl_append, digitsVal_from]
  rfl

theorem natCharsAux_succ (fuel n : Nat) :
    natCharsAux (fuel + 1) n
      = if n < 10 then [digChar n] else natCharsAux fuel (n / 10) ++ [digChar n] := rfl

theorem natCharsAux_ne_nil (fuel n : Nat) : natCharsAux (fuel + 1) n ≠ [] := by
  rw [natCharsAux_succ]
  split <;> simp

theorem natCharsAux_congr (fuel1 : Nat) :
    ∀ fuel2 n, n < 10 ^ (fuel1 + 1) → n < 10 ^ (fuel2 + 1) →
      natCharsAux (fuel1 + 1) n = natCharsAux (fuel2 + 1) n := by
  induction fuel1 with
  | zero =>
    intro fuel2 n h1 h2
    have hn : n < 10 := by simpa using h1
    cases fuel2 with
    | zero => rfl
    | succ f2 => rw [natCharsAux_succ 0 n, natCharsAux_succ (f2 + 1) n, if_pos hn, if_pos hn]
  | succ f1 ih =>
    intro fuel2 n h1 h2
    by_cases hn : n < 10
    · cases fuel2 with
      | zero => rw [natCharsAux_succ (f1 + 1) n, natCharsAux_succ 0 n, if_pos hn, if_pos hn]
      | succ f2 =>
        rw [natCharsAux_succ (f1 + 1) n, natCharsAux_succ (f2 + 1) n, if_pos hn, if_pos hn]
    · cases fuel2 with
      | zero =>
        exfalso
        have : n < 10 := by simpa using h2
        omega
      | succ f2 =>
        have hd1 : n / 10 < 10 ^ (f1 + 1) := by
          rw [Nat.div_lt_iff_lt_mul (by omega)]
          calc n < 10 ^ (f1 + 1 + 1) := h1
          _ = 10 ^ (f1 + 1) * 10 := by ring
        have hd2 : n / 10 < 10 ^ (f2 + 1) := by
          rw [Nat.div_lt_iff_lt_mul (by omega)]
          calc n < 10 ^ (f2 + 1 + 1) := h2
          _ = 10 ^ (f2 + 1) * 10 := by ring
        rw [natCharsAux_succ (f1 + 1) n, natCharsAux_succ (f2 + 1) n, if_neg hn, if_neg hn,
          ih f2 (n / 10) hd1 hd2]

theorem lt_ten_pow_succ_self (n : Nat) : n < 10 ^ (n + 1) := by
  calc n < 2 ^ n := Nat.lt_two_pow n
  _ ≤ 10 ^ n := Nat.pow_le_pow_left (by omega) n
  _ < 10 ^ (n + 1) := Nat.pow_lt_pow_succ (by omega)

theorem natChars_eq_aux (fuel n : Nat) (h : n < 10 ^ (fuel + 1)) :
    natChars n = natCharsAux (fuel + 1) n :=
  natCharsAux_congr n fuel n (lt_ten_pow_succ_self n) h

theorem natChars_ne_nil (n : Nat) : natChars n ≠ [] := natCharsAux_ne_nil n n

theorem natCharsAux_val (fuel : Nat) :
    ∀ n, n < 10 ^ fuel → digitsVal (natCharsAux fuel n) = n := by
  induction fuel with
  | zero =>
    intro n h
    interval_cases n
    rfl
  | succ fuel ih =>
    intro n h
    unfold natCharsAux
    split
    · rename_i h2
      simp [digitsVal, digVal_digChar, Nat.mod_eq_of_lt h2]
    · rename_i h2
      have h3 : n / 10 < 10 ^ fuel := by
        rw [Nat.div_lt_iff_lt_mul (by omega)]
        calc n < 10 ^ (fuel + 1) := h
        _ = 10 ^ fuel * 10 := by ring
      rw [digitsVal_append, ih (n / 10) h3]
      simp [digitsVal, digVal_digChar]
      omega

theorem natChars_val (n : Nat) : digitsVal (natChars n) = n :=
  natCharsAux_val (n + 1) n (lt_ten_pow_succ_self n)

theorem natCharsAux_digits (fuel : Nat) :
    ∀ n, ∀ c ∈ natCharsAux fuel n, c.isDigit = true := by
  induction fuel with
  | zero => intro n c hc; simp [natCharsAux] at hc
  | succ fuel ih =>
    intro n c hc
    unfold natCharsAux at hc
    split at hc
    · rw [List.mem_singleton] at hc
      subst hc
      exact digChar_isDigit n
    · rw [List.mem_append] at hc
      rcases hc with hc | hc
      · exact ih (n / 10) c hc
      · rw [List.mem_singleton] at hc
        subst hc
        exact digChar_isDigit n

theorem natChars_digits (n : Nat) : ∀ c ∈ natChars n, c.isDigit = true :=
  natCharsAux_digits (n + 1) n

theorem natCharsAux_getLast (fuel n : Nat) :
    (natCharsAux (fuel + 1) n).getLast? = some (digChar n) := by
  rw [natCharsAux_succ]
  split
  · rfl
  · rw [List.getLast?_append_of_ne_nil _ (by simp)]
    rfl

theorem natChars_getLast (n : Nat) : (natChars n).getLast? = some (digChar n) :=
  natCharsAux_getLast n n

theorem natCharsAux_head_zero (fuel : Nat) :
    ∀ n, n < 10 ^ fuel → n ≠ 0 → ∀ c, (natCharsAux fuel n).head? = some c → c ≠ '0' := by
  induction fuel with
  | zero => intro n hb hn; omega
  | succ fuel ih =>
    intro n hb hn c hc
    rw [natCharsAux_succ] at hc
    split at hc
    · rename_i h2
      simp only [List.head?_cons, Option.some_inj] at hc
      subst hc
      simp only [ne_eq, digChar_eq_zeroChar]
      omega
    · rename_i h2
      have h3 : n / 10 < 10 ^ fuel := by
        rw [Nat.div_lt_iff_lt_mul (by omega)]
        calc n < 10 ^ (fuel + 1) := hb
        _ = 10 ^ fuel * 10 := by ring
      have h4 : n / 10 ≠ 0 := by omega
      have h5 : natCharsAux fuel (n / 10) ≠ [] := by
        cases fuel with
        | zero => omega
        | succ f => exact natCharsAux_ne_nil f (n / 10)
      rw [List.head?_append_of_ne_nil _ h5] at hc
      exact ih (n / 10) h3 h4 c hc

theorem natChars_head_zero (n : Nat) (hn : n ≠ 0) :
    ∀ c, (natChars n).head? = some c → c ≠ '0' :=
  natCharsAux_head_zero (n + 1) n (lt_ten_pow_succ_self n) hn

theorem natCharsAux_len_le (fuel : Nat) :
    ∀ n, n < 10 ^ fuel → (natCharsAux fuel n).length ≤ fuel := by
  induction fuel with
  | zero => intro n h; simp [natCharsAux]
  | succ fuel ih =>
    intro n h
    unfold natCharsAux
    split
    · simp
    · rename_i h2
      rw [List.length_append]
      have h3 : n / 10 < 10 ^ fuel := by
        rw [Nat.div_lt_iff_lt_mul (by omega)]
        calc n < 10 ^ (fuel + 1) := h
        _ = 10 ^ fuel * 10 := by ring
      have := ih (n / 10) h3
      simp only [List.length_singleton]
      omega

theorem natChars_len_le (w n : Nat) (h : n < 10 ^ w) (hw : 0 < w) :
    (natChars n).length ≤ w := by
  obtain ⟨w2, rfl⟩ : ∃ w2, w = w2 + 1 := ⟨w - 1, by omega⟩
  rw [natChars_eq_aux w2 n h]
  exact natCharsAux_len_le (w2 + 1) n h

/-- Zero-pad a digit string on the left to width `w`. -/
def padZeros (w : Nat) (l : List Char) : List Char := List.replicate (w - l.length) '0' ++ l

theorem padZeros_length (w : Nat) (l : List Char) (h : l.length ≤ w) :
    (padZeros w l).length = w := by
  simp [padZeros]
  omega

theorem digitsVal_replicate_zero (k : Nat) : digitsVal (List.replicate k '0') = 0 := by
  induction k with
  | zero => rfl
  | succ k ih =>
    have h : List.replicate (k + 1) '0' = List.replicate k '0' ++ ['0'] := by
      rw [List.replicate_succ']
  -- append form for the inductive step
    rw [h, digitsVal_append, ih]
    decide

theorem padZeros_val (w : Nat) (l : List Char) : digitsVal (padZeros w l) = digitsVal l := by
  unfold padZeros
  rw [digitsVal_append, digitsVal_replicate_zero]
  simp

theorem padZeros_digits (w : Nat) (l : List Char) (h : ∀ c ∈ l, c.isDigit = true) :
    ∀ c ∈ padZeros w l, c.isDigit = true := by
  intro c hc
  unfold padZeros at hc
  rw [List.mem_append] at hc
  rcases hc with hc | hc
  · rw [List.eq_of_mem_replicate hc]
    decide
  · exact h c hc

theorem padZeros_getLast (w : Nat) (l : List Char) (h : l ≠ []) :
    (padZeros w l).getLast? = l.getLast? := by
  unfold padZeros
  rw [List.getLast?_append_of_ne_nil _ h]

/-! ### Number printing and parsing -/

/-- Character list of an integer: optional minus sign, then decimal digits. -/
def intChars (i : Int) : List Char := (if i < 0 then ['-'] else []) ++ natChars i.natAbs

/-- Canonical decimal spelling of a number: exactly what `String(n)` and
`JSON.stringify(n)` print for a finite double whose canonical form is the
plain decimal `mant / 10 ^ frac`. -/
def printNum (n : JNum) : List Char :=
  if n.frac = 0 then intChars n.mant
  else
    (if n.mant < 0 then ['-'] else [])
      ++ natChars (n.mant.natAbs / 10 ^ n.frac)
      ++ '.' :: padZeros n.frac (natChars (n.mant.natAbs % 10 ^ n.frac))

/-- Drop trailing zero digits: `JSON.parse` reads `1.10` as the value `1.1`. -/
def stripZeros (l : List Char) : List Char :=
  (l.reverse.dropWhile (fun c => c == '0')).reverse

/-- Apply a parsed sign to a digit value. -/
def mkSign (neg : Bool) (m : Nat) : Int := if neg then -(m : Int) else (m : Int)

/-- Parse an unsigned JSON number after the optional sign was consumed.
Leading zeros and an empty integer or fraction part are grammar errors,
exactly as for `JSON.parse`; exponent spellings are outside the model. -/
def parseFrac (neg : Bool) (ids r : List Char) : Option (JNum × List Char) :=
  let fds := r.takeWhile Char.isDigit
  let l3 := r.dropWhile Char.isDigit
  if fds = [] then none
  else
    let fds2 := stripZeros fds
    some (⟨mkSign neg (digitsVal (ids ++ fds2)), fds2.length⟩, l3)

def parseNumCore (neg : Bool) (l1 : List Char) : Option (JNum × List Char) :=
  let ids := l1.takeWhile Char.isDigit
  let l2 := l1.dropWhile Char.isDigit
  if ids = [] then none
  else if ids ≠ ['0'] ∧ ids.head? = some '0' then none
  else
    match l2 with
    | '.' :: r => parseFrac neg ids r
    | _ => some (⟨mkSign neg (digitsVal ids), 0⟩, l2)

/-- Parse a JSON number (optional minus sign, then digits). -/
def parseNum : List Char → Option (JNum × List Char)
  | '-' :: r => parseNumCore true r
  | l => parseNumCore false l

/-- A continuation in front of which a printed number parses back exactly:
empty, or starting with a character that can extend neither the digit run
nor start a fraction part. -/
def numStop (l : List Char) : Bool :=
  match l with
  | [] => true
  | c :: _ => !(c.isDigit || c == '.')

theorem takeWhile_digits_append (a : List Char) (rest : List Char)
    (ha : ∀ c ∈ a, c.isDigit = true)
    (hr : ∀ c, rest.head? = some c → c.isDigit = false) :
    (a ++ rest).takeWhile Char.isDigit = a
      ∧ (a ++ rest).dropWhile Char.isDigit = rest := by
  induction a with
  | nil =>
    simp only [List.nil_append]
    cases rest with
    | nil => simp
    | cons c t =>
      have hc := hr c rfl
      simp [List.takeWhile_cons, List.dropWhile_cons, hc]
  | cons c t ih =>
    have hc : c.isDigit = true := ha c (by simp)
    have ht := ih (fun x hx => ha x (by simp [hx]))
    simp [List.takeWhile_cons, List.dropWhile_cons, hc, ht.1, ht.2]

theorem stripZeros_eq_self (l : List Char)
    (h : ∀ c, l.getLast? = some c → c ≠ '0') : stripZeros l = l := by
  unfold stripZeros
  cases hrev : l.reverse with
  | nil => simp_all
  | cons c t =>
    have hlast : l.getLast? = some c := by
      rw [← List.head?_reverse, hrev]
      rfl
    have hc : (c == '0') = false := by
      simp only [beq_eq_false_iff_ne]
      exact h c hlast
    rw [List.dropWhile_cons, hc]
    simp only [Bool.false_eq_true, if_false]
    rw [← hrev, List.reverse_reverse]

theorem numStop_head (c : Char) (t : List Char) (h : numStop (c :: t) = true) :
    c.isDigit = false ∧ c ≠ '.' := by
  simp only [numStop, Bool.not_eq_true', Bool.or_eq_false_iff, beq_eq_false_iff_ne] at h
  exact h

theorem natChars_zero : natChars 0 = ['0'] := by decide

theorem natChars_leadOk (k : Nat) :
    ¬(natChars k ≠ ['0'] ∧ (natChars k).head? = some '0') := by
  by_cases hk : k = 0
  · subst hk
    intro h
    exact h.1 natChars_zero
  · intro h
    exact natChars_head_zero k hk '0' h.2 rfl

theorem restHeadNotDigit (rest : List Char) (hr : numStop rest = true) :
    ∀ c, rest.head? = some c → c.isDigit = false := by
  intro c hc
  cases rest with
  | nil => simp at hc
  | cons c2 t =>
    simp only [List.head?_cons, Option.some_inj] at hc
    subst hc
    exact (numStop_head c2 t hr).1

theorem parseNumCore_int (neg : Bool) (a rest : List Char)
    (ha : ∀ c ∈ a, c.isDigit = true) (hne : a ≠ [])
    (hlead : ¬(a ≠ ['0'] ∧ a.head? = some '0'))
    (hr : numStop rest = true) :
    parseNumCore neg (a ++ rest) = some (⟨mkSign neg (digitsVal a), 0⟩, rest) := by
  obtain ⟨htake, hdrop⟩ := takeWhile_digits_append a rest ha (restHeadNotDigit rest hr)
  unfold parseNumCore
  simp only [htake, hdrop]
  rw [if_neg hne, if_neg hlead]
  cases rest with
  | nil => rfl
  | cons c2 t =>
    have hdot : c2 ≠ '.' := (numStop_head c2 t hr).2
    split
    · rename_i r heq
      rw [List.cons.injEq] at heq
      exact absurd heq.1 hdot
    · rfl

theorem parseFrac_eval (neg : Bool) (ids b rest : List Char)
    (hb : ∀ c ∈ b, c.isDigit = true) (hbne : b ≠ [])
    (hblast : ∀ c, b.getLast? = some c → c ≠ '0')
    (hr : numStop rest = true) :
    parseFrac neg ids (b ++ rest)
      = some (⟨mkSign neg (digitsVal (ids ++ b)), b.length⟩, rest) := by
  obtain ⟨htake, hdrop⟩ := takeWhile_digits_append b rest hb (restHeadNotDigit rest hr)
  unfold parseFrac
  simp only [htake, hdrop]
  rw [if_neg hbne, stripZeros_eq_self b hblast]

theorem parseNumCore_frac (neg : Bool) (a b rest : List Char)
    (ha : ∀ c ∈ a, c.isDigit = true) (hane : a ≠ [])
    (hlead : ¬(a ≠ ['0'] ∧ a.head? = some '0'))
    (hb : ∀ c ∈ b, c.isDigit = true) (hbne : b ≠ [])
    (hblast : ∀ c, b.getLast? = some c → c ≠ '0')
    (hr : numStop rest = true) :
    parseNumCore neg (a ++ '.' :: (b ++ rest))
      = some (⟨mkSign neg (digitsVal (a ++ b)), b.length⟩, rest) := by
  have hdot : ∀ c, ('.' :: (b ++ rest)).head? = some c → c.isDigit = false := by
    intro c hc
    simp only [List.head?_cons, Option.some_inj] at hc
    subst hc
    decide
  obtain ⟨htake, hdrop⟩ := takeWhile_digits_append a ('.' :: (b ++ rest)) ha hdot
  unfold parseNumCore
  simp only [htake, hdrop]
  rw [if_neg hane, if_neg hlead]
  exact parseFrac_eval neg a b rest hb hbne hblast hr

theorem parseNum_neg (r : List Char) : parseNum ('-' :: r) = parseNumCore true r := rfl

theorem parseNum_notNeg (c : Char) (t : List Char) (h : c ≠ '-') :
    parseNum (c :: t) = parseNumCore false (c :: t) := by
  unfold parseNum
  split
  · rename_i heq
    rw [List.cons.injEq] at heq
    exact absurd heq.1 h
  · rfl

theorem digit_ne_minus (c : Char) (h : c.isDigit = true) : c ≠ '-' := by
  intro h2
  subst h2
  exact absurd h (by decide)

theorem mkSign_true (k : Nat) : mkSign true k = -(k : Int) := rfl

theorem mkSign_false (k : Nat) : mkSign false k = (k : Int) := rfl

theorem mkSign_natAbs_neg (m : Int) (h : m < 0) : mkSign true m.natAbs = m := by
  rw [mkSign_true]
  omega

theorem mkSign_natAbs_nonneg (m : Int) (h : ¬m < 0) : mkSign false m.natAbs = m := by
  rw [mkSign_false]
  omega

/-- The number codec inverse: a canonically printed number parses back to
itself whenever the remainder cannot extend the numeral. -/
theorem parseNum_print (n : JNum) (rest : List Char) (hw : wfNum n = true)
    (hr : numStop rest = true) :
    parseNum (printNum n ++ rest) = some (n, rest) := by
  obtain ⟨m, frac⟩ := n
  by_cases hf : frac = 0
  · subst hf
    rw [show printNum ⟨m, 0⟩ = intChars m from by simp [printNum]]
    by_cases hm : m < 0
    · rw [show intChars m = '-' :: natChars m.natAbs from by simp [intChars, hm]]
      rw [List.cons_append, parseNum_neg,
        parseNumCore_int true (natChars m.natAbs) rest (natChars_digits _)
          (natChars_ne_nil _) (natChars_leadOk _) hr,
        natChars_val, mkSign_natAbs_neg m hm]
    · rw [show intChars m = natChars m.natAbs from by simp [intChars, hm]]
      obtain ⟨c, t, hshape⟩ : ∃ c t, natChars m.natAbs = c :: t := by
        cases hs : natChars m.natAbs with
        | nil => exact absurd hs (natChars_ne_nil _)
        | cons c t => exact ⟨c, t, rfl⟩
      have hcdig : c.isDigit = true := natChars_digits m.natAbs c (by rw [hshape]; simp)
      rw [hshape, List.cons_append, parseNum_notNeg c _ (digit_ne_minus c hcdig),
        ← List.cons_append, ← hshape,
        parseNumCore_int false (natChars m.natAbs) rest (natChars_digits _)
          (natChars_ne_nil _) (natChars_leadOk _) hr,
        natChars_val, mkSign_natAbs_nonneg m hm]
  · have hm10 : m.natAbs % 10 ≠ 0 := by
      simp only [wfNum, Bool.or_eq_true, beq_iff_eq, bne_iff_ne, ne_eq] at hw
      rcases hw with hw | hw
      · exact absurd hw hf
      · exact hw
    have hpowpos : 0 < 10 ^ frac := Nat.pos_pow_of_pos frac (by omega)
    have hfp10 : m.natAbs % 10 ^ frac % 10 = m.natAbs % 10 := by
      apply Nat.mod_mod_of_dvd
      exact dvd_pow_self 10 hf
    have hfpne : m.natAbs % 10 ^ frac ≠ 0 := by omega
    have hfplt : m.natAbs % 10 ^ frac < 10 ^ frac := Nat.mod_lt _ hpowpos
    have hlen : (natChars (m.natAbs % 10 ^ frac)).length ≤ frac :=
      natChars_len_le frac _ hfplt (by omega)
    have hpadlen : (padZeros frac (natChars (m.natAbs % 10 ^ frac))).length = frac :=
      padZeros_length _ _ hlen
    have hpaddig := padZeros_digits frac _ (natChars_digits (m.natAbs % 10 ^ frac))
    have hpadlast : ∀ c, (padZeros frac (natChars (m.natAbs % 10 ^ frac))).getLast? = some c
        → c ≠ '0' := by
      intro c hc
      rw [padZeros_getLast _ _ (natChars_ne_nil _), natChars_getLast] at hc
      rw [Option.some_inj] at hc
      subst hc
      simp only [ne_eq, digChar_eq_zeroChar]
      omega
    have hpadne : padZeros frac (natChars (m.natAbs % 10 ^ frac)) ≠ [] := by
      intro hnil
      rw [← hpadlen, hnil] at hf
      exact hf rfl
    have hval : digitsVal (natChars (m.natAbs / 10 ^ frac)
        ++ padZeros frac (natChars (m.natAbs % 10 ^ frac))) = m.natAbs := by
      rw [digitsVal_append, hpadlen, padZeros_val, natChars_val, natChars_val]
      calc m.natAbs / 10 ^ frac * 10 ^ frac + m.natAbs % 10 ^ frac
          = 10 ^ frac * (m.natAbs / 10 ^ frac) + m.natAbs % 10 ^ frac := by ring
      _ = m.natAbs := Nat.div_add_mod m.natAbs (10 ^ frac)
    rw [show printNum ⟨m, frac⟩
        = (if m < 0 then ['-'] else []) ++ natChars (m.natAbs / 10 ^ frac)
          ++ '.' :: padZeros frac (natChars (m.natAbs % 10 ^ frac))
      from by simp [printNum, hf]]
    by_cases hm : m < 0
    · rw [if_pos hm]
      rw [show (['-'] ++ natChars (m.natAbs / 10 ^ frac)
            ++ '.' :: padZeros frac (natChars (m.natAbs % 10 ^ frac))) ++ rest
          = '-' :: (natChars (m.natAbs / 10 ^ frac)
            ++ '.' :: (padZeros frac (natChars (m.natAbs % 10 ^ frac)) ++ rest))
        from by simp]
      rw [parseNum_neg,
        parseNumCore_frac true _ _ rest (natChars_digits _) (natChars_ne_nil _)
          (natChars_leadOk _) hpaddig hpadne hpadlast hr,
        hval, mkSign_natAbs_neg m hm, hpadlen]
    · rw [if_neg hm, List.nil_append]
      obtain ⟨c, t, hshape⟩ : ∃ c t, natChars (m.natAbs / 10 ^ frac) = c :: t := by
        cases hs : natChars (m.natAbs / 10 ^ frac) with
        | nil => exact absurd hs (natChars_ne_nil _)
        | cons c t => exact ⟨c, t, rfl⟩
      have hcdig : c.isDigit = true :=
        natChars_digits (m.natAbs / 10 ^ frac) c (by rw [hshape]; simp)
      rw [show (natChars (m.natAbs / 10 ^ frac)
            ++ '.' :: padZeros frac (natChars (m.natAbs % 10 ^ frac))) ++ rest
          = natChars (m.natAbs / 10 ^ frac)
            ++ '.' :: (padZeros frac (natChars (m.natAbs % 10 ^ frac)) ++ rest)
        from by simp]
      rw [hshape, List.cons_append, parseNum_notNeg c _ (digit_ne_minus c hcdig),
        ← List.cons_append, ← hshape,
        parseNumCore_frac false _ _ rest (natChars_digits _) (natChars_ne_nil _)
          (natChars_leadOk _) hpaddig hpadne hpadlast hr,
        hval, mkSign_natAbs_nonneg m hm, hpadlen]

/-! ### String escaping -/

/-- Lowercase hex digit character of `n < 16`. -/
def hexDig (n : Nat) : Char :=
  if n < 10 then Char.ofNat (48 + n) else Char.ofNat (87 + n)

/-- Value of a hex digit character (either case), as `JSON.parse` reads it. -/
def hexVal (c : Char) : Option Nat :=
  if 48 ≤ c.toNat ∧ c.toNat ≤ 57 then some (c.toNat - 48)
  else if 97 ≤ c.toNat ∧ c.toNat ≤ 102 then some (c.toNat - 87)
  else if 65 ≤ c.toNat ∧ c.toNat ≤ 70 then some (c.toNat - 55)
  else none

/-- JSON escape of one character, exactly as `JSON.stringify` prints it:
quote and backslash escaped, the five short control escapes, `\u00xx` for the
remaining control characters, everything else verbatim. -/
def escChar (c : Char) : List Char :=
  if c = '"' then ['\\', '"']
  else if c = '\\' then ['\\', '\\']
  else if c = '\n' then ['\\', 'n']
  else if c = '\r' then ['\\', 'r']
  else if c = '\t' then ['\\', 't']
  else if c.toNat = 8 then ['\\', 'b']
  else if c.toNat = 12 then ['\\', 'f']
  else if c.toNat < 32 then ['\\', 'u', '0', '0', hexDig (c.toNat / 16), hexDig (c.toNat % 16)]
  else [c]

def escBody : List Char → List Char
  | [] => []
  | c :: cs => escChar c ++ escBody cs

/-- A string as `JSON.stringify` prints it (quotes plus escaped body). -/
def printStr (s : String) : List Char := '"' :: (escBody s.data ++ ['"'])

def unescChar (e : Char) : Option Char :=
  if e = '"' then some '"'
  else if e = '\\' then some '\\'
  else if e = '/' then some '/'
  else if e = 'n' then some '\n'
  else if e = 'r' then some '\r'
  else if e = 't' then some '\t'
  else if e = 'b' then some (Char.ofNat 8)
  else if e = 'f' then some (Char.ofNat 12)
  else none

/-- Parse a JSON string body after the opening quote: escapes are decoded,
raw control characters are grammar errors, the closing quote ends the body
(as for `JSON.parse`; `\uXXXX` escapes outside Lean's scalar values are a
model boundary, they decode through `Char.ofNat`). -/
def parseStrBody : List Char → Option (List Char × List Char)
  | [] => none
  | '"' :: rest => some ([], rest)
  | '\\' :: 'u' :: a :: b :: c2 :: d :: rest2 =>
    match hexVal a, hexVal b, hexVal c2, hexVal d with
    | some va, some vb, some vc, some vd =>
      (parseStrBody rest2).map
        (fun p => (Char.ofNat (((va * 16 + vb) * 16 + vc) * 16 + vd) :: p.1, p.2))
    | _, _, _, _ => none
  | '\\' :: e :: rest2 =>
    match unescChar e with
    | some c3 => (parseStrBody rest2).map (fun p => (c3 :: p.1, p.2))
    | none => none
  | '\\' :: [] => none
  | c :: rest =>
    if c.toNat < 32 then none
    else (parseStrBody rest).map (fun p => (c :: p.1, p.2))

theorem hexVal_hexDig (n : Nat) (h : n < 16) : hexVal (hexDig n) = some n := by
  interval_cases n <;> decide

theorem parseStrBody_unicode (a b c2 d : Char) (rest2 : List Char) :
    parseStrBody ('\\' :: 'u' :: a :: b :: c2 :: d :: rest2)
      = (match hexVal a, hexVal b, hexVal c2, hexVal d with
        | some va, some vb, some vc, some vd =>
          (parseStrBody rest2).map
            (fun p => (Char.ofNat (((va * 16 + vb) * 16 + vc) * 16 + vd) :: p.1, p.2))
        | _, _, _, _ => none) := rfl

theorem escChar_parse (c : Char) (rest : List Char) :
    parseStrBody (escChar c ++ rest) = (parseStrBody rest).map (fun p => (c :: p.1, p.2)) := by
  unfold escChar
  by_cases h1 : c = '"'
  · subst h1
    rfl
  rw [if_neg h1]
  by_cases h2 : c = '\\'
  · subst h2
    rfl
  rw [if_neg h2]
  by_cases h3 : c = '\n'
  · subst h3
    rfl
  rw [if_neg h3]
  by_cases h4 : c = '\r'
  · subst h4
    rfl
  rw [if_neg h4]
  by_cases h5 : c = '\t'
  · subst h5
    rfl
  rw [if_neg h5]
  by_cases h6 : c.toNat = 8
  · have hc : c = Char.ofNat 8 := by
      rw [← h6, Char.ofNat_toNat]
    rw [if_pos h6, hc]
    rfl
  rw [if_neg h6]
  by_cases h7 : c.toNat = 12
  · have hc : c = Char.ofNat 12 := by
      rw [← h7, Char.ofNat_toNat]
    rw [if_pos h7, hc]
    rfl
  rw [if_neg h7]
  by_cases h8 : c.toNat < 32
  · rw [if_pos h8]
    have hhi : c.toNat / 16 < 16 := by omega
    have hlo : c.toNat % 16 < 16 := by omega
    have hstep : parseStrBody
        (['\\', 'u', '0', '0', hexDig (c.toNat / 16), hexDig (c.toNat % 16)] ++ rest)
        = (match hexVal '0', hexVal '0', hexVal (hexDig (c.toNat / 16)),
            hexVal (hexDig (c.toNat % 16)) with
          | some va, some vb, some vc, some vd =>
            (parseStrBody rest).map
              (fun p => (Char.ofNat (((va * 16 + vb) * 16 + vc) * 16 + vd) :: p.1, p.2))
          | _, _, _, _ => none) :=
      parseStrBody_unicode '0' '0' (hexDig (c.toNat / 16)) (hexDig (c.toNat % 16)) rest
    rw [hstep, hexVal_hexDig _ hhi, hexVal_hexDig _ hlo,
      show hexVal '0' = some 0 from by decide]
    show (parseStrBody rest).map
        (fun p => (Char.ofNat (((0 * 16 + 0) * 16 + c.toNat / 16) * 16 + c.toNat % 16)
          :: p.1, p.2))
      = (parseStrBody rest).map (fun p => (c :: p.1, p.2))
    have harith : ((0 * 16 + 0) * 16 + c.toNat / 16) * 16 + c.toNat % 16 = c.toNat := by
      omega
    rw [harith, Char.ofNat_toNat]
  rw [if_neg h8]
  rw [show [c] ++ rest = c :: rest from rfl]
  simp [parseStrBody, h1, h2, h8]

theorem parseStrBody_escBody (cs : List Char) : ∀ rest,
    parseStrBody (escBody cs ++ '"' :: rest) = some (cs, rest) := by
  induction cs with
  | nil =>
    intro rest
    simp [escBody, parseStrBody]
  | cons c cs ih =>
    intro rest
    rw [escBody, List.append_assoc, escChar_parse, ih]
    rfl

/-! ### JSON values, printing, parsing -/

/-- A JSON value as `JSON.parse` can produce it: primitives, arrays, and
plain objects whose fields are kept in property order. -/
inductive Jv where
  | jnull
  | jbool (b : Bool)
  | jnum (n : JNum)
  | jstr (s : String)
  | jarr (xs : List Jv)
  | jobj (fs : List (String × Jv))

/-- Key-membership test on an object field list. -/
def hasKeyJ (k : String) (fs : List (String × Jv)) : Bool := fs.any (fun kv => kv.1 == k)

/-- Upsert with JavaScript property semantics: an existing key keeps its
position and receives the new value, a fresh key is appended. -/
def upsertJ (k : String) (v : Jv) : List (String × Jv) → List (String × Jv)
  | [] => [(k, v)]
  | (k2, v2) :: rest => if k2 = k then (k, v) :: rest else (k2, v2) :: upsertJ k v rest

/-- Object construction from parsed members in source order: a later
duplicate key overwrites the earlier value in place, as `JSON.parse` does. -/
def buildObj (ms : List (String × Jv)) : List (String × Jv) :=
  ms.foldl (fun acc kv => upsertJ kv.1 kv.2 acc) []

mutual
/-- The submodel of values reachable as actual JavaScript data: canonical
numbers everywhere and no duplicate keys in any object. -/
def wfJ : Jv → Bool
  | .jnull => true
  | .jbool _ => true
  | .jnum n => wfNum n
  | .jstr _ => true
  | .jarr xs => wfArr xs
  | .jobj fs => wfObj fs
def wfArr : List Jv → Bool
  | [] => true
  | x :: xs => wfJ x && wfArr xs
def wfObj : List (String × Jv) → Bool
  | [] => true
  | (k, v) :: fs => !hasKeyJ k fs && wfJ v && wfObj fs
end

mutual
/-- Model of `JSON.stringify` on parseable values (compact form, property
order preserved, strings escaped as `JSON.stringify` escapes them). -/
def printJ : Jv → List Char
  | .jnull => ['n', 'u', 'l', 'l']
  | .jbool true => ['t', 'r', 'u', 'e']
  | .jbool false => ['f', 'a', 'l', 's', 'e']
  | .jnum n => printNum n
  | .jstr s => printStr s
  | .jarr [] => ['[', ']']
  | .jarr (x :: xs) => '[' :: (printJ x ++ printItems xs)
  | .jobj [] => ['\x7b', '\x7d']
  | .jobj (f0 :: fs) => '\x7b' :: (printEntry f0 ++ printEntries fs)
def printItems : List Jv → List Char
  | [] => [']']
  | x :: xs => ',' :: (printJ x ++ printItems xs)
def printEntry : String × Jv → List Char
  | (k, v) => printStr k ++ ':' :: printJ v
def printEntries : List (String × Jv) → List Char
  | [] => ['\x7d']
  | f0 :: fs => ',' :: (printEntry f0 ++ printEntries fs)
end

/-- JSON whitespace. -/
def isWsChar (c : Char) : Bool := c == ' ' || c == '\n' || c == '\t' || c == '\r'

def trimWs : List Char → List Char
  | [] => []
  | c :: cs => if isWsChar c then trimWs cs else c :: cs

mutual
/-- Model of the `JSON.parse` grammar walk (structural on `fuel`): one value
and the unconsumed remainder. -/
def parseVal : Nat → List Char → Option (Jv × List Char)
  | 0, _ => none
  | fuel + 1, input =>
    match trimWs input with
    | 'n' :: 'u' :: 'l' :: 'l' :: r => some (.jnull, r)
    | 't' :: 'r' :: 'u' :: 'e' :: r => some (.jbool true, r)
    | 'f' :: 'a' :: 'l' :: 's' :: 'e' :: r => some (.jbool false, r)
    | '"' :: r => (parseStrBody r).map (fun p => (.jstr ⟨p.1⟩, p.2))
    | '[' :: r =>
      match trimWs r with
      | [] => none
      | c :: r2 =>
        if c = ']' then some (.jarr [], r2)
        else (parseItems fuel (c :: r2)).map (fun p => (.jarr p.1, p.2))
    | '\x7b' :: r =>
      match trimWs r with
      | [] => none
      | c :: r2 =>
        if c = '\x7d' then some (.jobj [], r2)
        else (parseEntries fuel (c :: r2)).map (fun p => (.jobj (buildObj p.1), p.2))
    | c :: r =>
      if c = '-' || c.isDigit then (parseNum (c :: r)).map (fun p => (.jnum p.1, p.2))
      else none
    | [] => none
def parseItems : Nat → List Char → Option (List Jv × List Char)
  | 0, _ => none
  | fuel + 1, input =>
    match parseVal fuel input with
    | none => none
    | some (v, r) =>
      match trimWs r with
      | ',' :: r2 => (parseItems fuel (trimWs r2)).map (fun p => (v :: p.1, p.2))
      | ']' :: r2 => some ([v], r2)
      | _ => none
def parseEntries : Nat → List Char → Option (List (String × Jv) × List Char)
  | 0, _ => none
  | fuel + 1, input =>
    match input with
    | '"' :: r =>
      match parseStrBody r with
      | none => none
      | some (kcs, r1) =>
        match trimWs r1 with
        | ':' :: r2 =>
          match parseVal fuel (trimWs r2) with
          | none => none
          | some (v, r3) =>
            match trimWs r3 with
            | ',' :: r4 =>
              (parseEntries fuel (trimWs r4)).map (fun p => ((⟨kcs⟩, v) :: p.1, p.2))
            | '\x7d' :: r4 => some ([(⟨kcs⟩, v)], r4)
            | _ => none
        | _ => none
    | _ => none
end

/-- Model of `JSON.parse`: one document, no trailing garbage; `none` models a
thrown `SyntaxError`. -/
def jsonParse (s : String) : Option Jv :=
  match parseVal (s.data.length + 1) s.data with
  | some (v, r) => if trimWs r = [] then some v else none
  | none => none

/-! ### Round-trip: parsing printed output -/

theorem trimWs_not_ws (c : Char) (t : List Char) (h : isWsChar c = false) :
    trimWs (c :: t) = c :: t := by
  simp [trimWs, h]

theorem digit_not_special (c : Char) (h : c.isDigit = true) :
    isWsChar c = false ∧ c ≠ ']' ∧ c ≠ '\x7d' ∧ c ≠ 'n' ∧ c ≠ 't' ∧ c ≠ 'f'
      ∧ c ≠ '"' ∧ c ≠ '[' ∧ c ≠ '\x7b' ∧ c ≠ '-' ∧ c ≠ ',' := by
  refine ⟨?_, ?_, ?_, ?_, ?_, ?_, ?_, ?_, ?_, ?_, ?_⟩
  · simp only [isWsChar, Bool.or_eq_false_iff, beq_eq_false_iff_ne]
    refine ⟨⟨⟨?_, ?_⟩, ?_⟩, ?_⟩ <;> (intro h2; subst h2; exact absurd h (by decide))
  all_goals (intro h2; subst h2; exact absurd h (by decide))

theorem printNum_head (n : JNum) :
    ∃ c t, printNum n = c :: t ∧ (c = '-' ∨ c.isDigit = true) := by
  obtain ⟨m, frac⟩ := n
  by_cases hf : frac = 0
  · subst hf
    rw [show printNum ⟨m, 0⟩ = intChars m from by simp [printNum]]
    by_cases hm : m < 0
    · exact ⟨'-', natChars m.natAbs, by simp [intChars, hm], Or.inl rfl⟩
    · cases hs : natChars m.natAbs with
      | nil => exact absurd hs (natChars_ne_nil _)
      | cons c t =>
        refine ⟨c, t, ?_, Or.inr (natChars_digits m.natAbs c (by rw [hs]; simp))⟩
        simp [intChars, hm, hs]
  · rw [show printNum ⟨m, frac⟩
        = (if m < 0 then ['-'] else []) ++ natChars (m.natAbs / 10 ^ frac)
          ++ '.' :: padZeros frac (natChars (m.natAbs % 10 ^ frac))
      from by simp [printNum, hf]]
    by_cases hm : m < 0
    · refine ⟨'-', natChars (m.natAbs / 10 ^ frac)
        ++ '.' :: padZeros frac (natChars (m.natAbs % 10 ^ frac)), ?_, Or.inl rfl⟩
      rw [if_pos hm]
      rfl
    · rw [if_neg hm, List.nil_append]
      cases hs : natChars (m.natAbs / 10 ^ frac) with
      | nil => exact absurd hs (natChars_ne_nil _)
      | cons c t =>
        refine ⟨c, t ++ '.' :: padZeros frac (natChars (m.natAbs % 10 ^ frac)), ?_,
          Or.inr (natChars_digits _ c (by rw [hs]; simp))⟩
        rfl

theorem printJ_head (v : Jv) :
    ∃ c t, printJ v = c :: t ∧ isWsChar c = false ∧ c ≠ ']' ∧ c ≠ '\x7d' := by
  cases v with
  | jnull => exact ⟨'n', _, rfl, by decide⟩
  | jbool b =>
    cases b with
    | true => exact ⟨'t', _, rfl, by decide⟩
    | false => exact ⟨'f', _, rfl, by decide⟩
  | jstr s => exact ⟨'"', _, rfl, by decide⟩
  | jarr xs =>
    cases xs with
    | nil => exact ⟨'[', _, rfl, by decide⟩
    | cons x t => exact ⟨'[', _, rfl, by decide⟩
  | jobj fs =>
    cases fs with
    | nil => exact ⟨'\x7b', _, rfl, by decide⟩
    | cons f0 t => exact ⟨'\x7b', _, rfl, by decide⟩
  | jnum n =>
    obtain ⟨c, t, hshape, hc⟩ := printNum_head n
    rcases hc with hc | hc
    · subst hc
      exact ⟨'-', t, hshape, by decide⟩
    · obtain ⟨hws, hbr, hbc, _⟩ := digit_not_special c hc
      exact ⟨c, t, hshape, hws, hbr, hbc⟩

theorem printJ_len_pos (v : Jv) : 1 ≤ (printJ v).length := by
  obtain ⟨c, t, hshape, _⟩ := printJ_head v
  rw [hshape]
  simp

theorem printItems_len_pos (xs : List Jv) : 1 ≤ (printItems xs).length := by
  cases xs with
  | nil => simp [printItems]
  | cons x t => simp [printItems]

theorem printEntries_len_pos (fs : List (String × Jv)) : 1 ≤ (printEntries fs).length := by
  cases fs with
  | nil => simp [printEntries]
  | cons f0 t => simp [printEntries]

theorem parseVal_null (f : Nat) (r : List Char) :
    parseVal (f + 1) ('n' :: 'u' :: 'l' :: 'l' :: r) = some (.jnull, r) := rfl

theorem parseVal_true (f : Nat) (r : List Char) :
    parseVal (f + 1) ('t' :: 'r' :: 'u' :: 'e' :: r) = some (.jbool true, r) := rfl

theorem parseVal_false (f : Nat) (r : List Char) :
    parseVal (f + 1) ('f' :: 'a' :: 'l' :: 's' :: 'e' :: r) = some (.jbool false, r) := rfl

theorem parseVal_quote (f : Nat) (r : List Char) :
    parseVal (f + 1) ('"' :: r)
      = (parseStrBody r).map (fun p => (Jv.jstr ⟨p.1⟩, p.2)) := rfl

theorem parseVal_lbrack (f : Nat) (r : List Char) :
    parseVal (f + 1) ('[' :: r)
      = (match trimWs r with
        | [] => none
        | c :: r2 =>
          if c = ']' then some (Jv.jarr [], r2)
          else (parseItems f (c :: r2)).map (fun p => (Jv.jarr p.1, p.2))) := rfl

theorem parseVal_lbrace (f : Nat) (r : List Char) :
    parseVal (f + 1) ('\x7b' :: r)
      = (match trimWs r with
        | [] => none
        | c :: r2 =>
          if c = '\x7d' then some (Jv.jobj [], r2)
          else (parseEntries f (c :: r2)).map (fun p => (Jv.jobj (buildObj p.1), p.2))) := rfl

theorem parseVal_str (f : Nat) (s : String) (rest : List Char) :
    parseVal (f + 1) (printStr s ++ rest) = some (.jstr s, rest) := by
  have harg : printStr s ++ rest = '"' :: (escBody s.data ++ '"' :: rest) := by
    simp [printStr]
  rw [harg, parseVal_quote, parseStrBody_escBody]
  rfl

theorem parseVal_catchall (f : Nat) (c : Char) (t : List Char)
    (hws : isWsChar c = false)
    (hn : c ≠ 'n') (ht : c ≠ 't') (hf : c ≠ 'f') (hq : c ≠ '"')
    (hbk : c ≠ '[') (hbc : c ≠ '\x7b')
    (hg : c = '-' ∨ c.isDigit = true) :
    parseVal (f + 1) (c :: t) = (parseNum (c :: t)).map (fun p => (.jnum p.1, p.2)) := by
  simp only [parseVal]
  rw [trimWs_not_ws c t hws]
  have hgb : (decide (c = '-') || c.isDigit) = true := by
    rcases hg with hg | hg
    · subst hg
      rfl
    · simp [hg]
  simp [hn, ht, hf, hq, hbk, hbc, hgb]

theorem parseVal_num (f : Nat) (n : JNum) (rest : List Char)
    (hw : wfNum n = true) (hr : numStop rest = true) :
    parseVal (f + 1) (printNum n ++ rest) = some (.jnum n, rest) := by
  obtain ⟨c, t, hshape, hc⟩ := printNum_head n
  have hcons : printNum n ++ rest = c :: (t ++ rest) := by
    rw [hshape]
    rfl
  rcases hc with hc | hc
  · subst hc
    rw [hcons, parseVal_catchall f '-' (t ++ rest) (by decide) (by decide) (by decide)
      (by decide) (by decide) (by decide) (by decide) (Or.inl rfl),
      ← hcons, parseNum_print n rest hw hr]
    rfl
  · obtain ⟨hws, _, _, hn2, ht2, hf2, hq2, hbk2, hbc2, _, _⟩ := digit_not_special c hc
    rw [hcons, parseVal_catchall f c (t ++ rest) hws hn2 ht2 hf2 hq2 hbk2 hbc2 (Or.inr hc),
      ← hcons, parseNum_print n rest hw hr]
    rfl

theorem hasKeyJ_nil (k : String) : hasKeyJ k [] = false := rfl

theorem upsertJ_fresh (k : String) (v : Jv) (acc : List (String × Jv))
    (h : hasKeyJ k acc = false) : upsertJ k v acc = acc ++ [(k, v)] := by
  induction acc with
  | nil => rfl
  | cons kv2 rest ih =>
    obtain ⟨k2, v2⟩ := kv2
    simp only [hasKeyJ, List.any_cons, Bool.or_eq_false_iff, beq_eq_false_iff_ne] at h
    rw [upsertJ, if_neg h.1, ih (by simp only [hasKeyJ]; exact h.2)]
    rfl

theorem buildObj_from (ms : List (String × Jv)) : ∀ acc,
    wfObj ms = true → (∀ kv ∈ ms, hasKeyJ kv.1 acc = false) →
    ms.foldl (fun acc kv => upsertJ kv.1 kv.2 acc) acc = acc ++ ms := by
  induction ms with
  | nil =>
    intro acc _ _
    simp
  | cons kv tl ih =>
    intro acc hwf hfresh
    obtain ⟨k, v⟩ := kv
    have hwf2 : hasKeyJ k tl = false ∧ wfObj tl = true := by
      simp only [wfObj, Bool.and_eq_true, Bool.not_eq_true'] at hwf
      exact ⟨hwf.1.1, hwf.2⟩
    have hne : ∀ kv2 ∈ tl, kv2.1 ≠ k := by
      intro kv2 hmem
      have h3 := hwf2.1
      simp only [hasKeyJ, List.any_eq_false, beq_eq_false_iff_ne] at h3
      intro heq
      exact absurd (by simp [heq] : (kv2.1 == k) = true) (h3 kv2 hmem)
    rw [List.foldl_cons, upsertJ_fresh k v acc (hfresh (k, v) (by simp))]
    rw [ih (acc ++ [(k, v)]) hwf2.2 ?fresh2]
    · simp
    case fresh2 =>
      intro kv2 hmem
      simp only [hasKeyJ, List.any_append, Bool.or_eq_false_iff]
      constructor
      · have := hfresh kv2 (by simp [hmem])
        simpa [hasKeyJ] using this
      · simp only [List.any_cons, List.any_nil, Bool.or_false, beq_eq_false_iff_ne]
        exact fun h2 => hne kv2 hmem h2.symm

theorem buildObj_nodup (ms : List (String × Jv)) (h : wfObj ms = true) :
    buildObj ms = ms := by
  unfold buildObj
  rw [buildObj_from ms [] h (fun kv _ => rfl)]
  rfl

theorem parseItems_succ (f : Nat) (input : List Char) :
    parseItems (f + 1) input
      = (match parseVal f input with
        | none => none
        | some (v, r) =>
          match trimWs r with
          | ',' :: r2 => (parseItems f (trimWs r2)).map (fun p => (v :: p.1, p.2))
          | ']' :: r2 => some ([v], r2)
          | _ => none) := rfl

theorem parseEntries_succ (f : Nat) (input : List Char) :
    parseEntries (f + 1) input
      = (match input with
        | '"' :: r =>
          match parseStrBody r with
          | none => none
          | some (kcs, r1) =>
            match trimWs r1 with
            | ':' :: r2 =>
              match parseVal f (trimWs r2) with
              | none => none
              | some (v, r3) =>
                match trimWs r3 with
                | ',' :: r4 =>
                  (parseEntries f (trimWs r4)).map (fun p => ((⟨kcs⟩, v) :: p.1, p.2))
                | '\x7d' :: r4 => some ([(⟨kcs⟩, v)], r4)
                | _ => none
            | _ => none
        | _ => none) := rfl

theorem printEntry_cons (g : String × Jv) :
    printEntry g = '"' :: (escBody g.1.data ++ '"' :: (':' :: printJ g.2)) := by
  obtain ⟨a, b⟩ := g
  simp [printEntry, printStr]

theorem parseEntries_key (f : Nat) (r : List Char) :
    parseEntries (f + 1) ('"' :: r)
      = (match parseStrBody r with
        | none => none
        | some (kcs, r1) =>
          match trimWs r1 with
          | ':' :: r2 =>
            match parseVal f (trimWs r2) with
            | none => none
            | some (v, r3) =>
              match trimWs r3 with
              | ',' :: r4 =>
                (parseEntries f (trimWs r4)).map (fun p => ((⟨kcs⟩, v) :: p.1, p.2))
              | '\x7d' :: r4 => some ([(⟨kcs⟩, v)], r4)
              | _ => none
          | _ => none) := rfl

mutual
theorem rt_val : ∀ (v : Jv) (f : Nat) (rest : List Char),
    wfJ v = true → (printJ v).length < f → numStop rest = true →
    parseVal f (printJ v ++ rest) = some (v, rest)
  | .jnull, f, rest, _, hf, _ => by
    cases f with
    | zero => exact absurd hf (Nat.not_lt_zero _)
    | succ f2 => exact parseVal_null f2 rest
  | .jbool true, f, rest, _, hf, _ => by
    cases f with
    | zero => exact absurd hf (Nat.not_lt_zero _)
    | succ f2 => exact parseVal_true f2 rest
  | .jbool false, f, rest, _, hf, _ => by
    cases f with
    | zero => exact absurd hf (Nat.not_lt_zero _)
    | succ f2 => exact parseVal_false f2 rest
  | .jnum n, f, rest, hw, hf, hr => by
    cases f with
    | zero => exact absurd hf (Nat.not_lt_zero _)
    | succ f2 => exact parseVal_num f2 n rest hw hr
  | .jstr s, f, rest, _, hf, _ => by
    cases f with
    | zero => exact absurd hf (Nat.not_lt_zero _)
    | succ f2 => exact parseVal_str f2 s rest
  | .jarr [], f, rest, _, hf, _ => by
    cases f with
    | zero => exact absurd hf (Nat.not_lt_zero _)
    | succ f2 =>
      show parseVal (f2 + 1) ('[' :: ']' :: rest) = some (.jarr [], rest)
      rw [parseVal_lbrack]
      rfl
  | .jarr (x :: xs), f, rest, hw, hf, _ => by
    cases f with
    | zero => exact absurd hf (Nat.not_lt_zero _)
    | succ f2 =>
      obtain ⟨c, t, hshape, hws, hbr, _⟩ := printJ_head x
      have harg : printJ (.jarr (x :: xs)) ++ rest
          = '[' :: (printJ x ++ printItems xs ++ rest) := rfl
      rw [harg, parseVal_lbrack]
      have hcons : printJ x ++ printItems xs ++ rest
          = c :: (t ++ (printItems xs ++ rest)) := by
        rw [hshape]
        simp
      rw [hcons, trimWs_not_ws c _ hws]
      show (if c = ']' then some (Jv.jarr [], t ++ (printItems xs ++ rest))
        else (parseItems f2 (c :: (t ++ (printItems xs ++ rest)))).map
          (fun p => (Jv.jarr p.1, p.2))) = some (Jv.jarr (x :: xs), rest)
      rw [if_neg hbr, ← hcons]
      have hlen : (printJ x).length + (printItems xs).length < f2 := by
        have h2 : printJ (Jv.jarr (x :: xs)) = '[' :: (printJ x ++ printItems xs) := rfl
        rw [h2] at hf
        simp only [List.length_cons, List.length_append] at hf
        omega
      rw [rt_items x xs f2 rest hw hlen]
      rfl
  | .jobj [], f, rest, _, hf, _ => by
    cases f with
    | zero => exact absurd hf (Nat.not_lt_zero _)
    | succ f2 =>
      show parseVal (f2 + 1) ('\x7b' :: '\x7d' :: rest) = some (.jobj [], rest)
      rw [parseVal_lbrace]
      rfl
  | .jobj ((k, v) :: fs), f, rest, hw, hf, _ => by
    cases f with
    | zero => exact absurd hf (Nat.not_lt_zero _)
    | succ f2 =>
      have harg : printJ (.jobj ((k, v) :: fs)) ++ rest
          = '\x7b' :: (printEntry (k, v) ++ printEntries fs ++ rest) := rfl
      rw [harg, parseVal_lbrace]
      have hcons : printEntry (k, v) ++ printEntries fs ++ rest
          = '"' :: (escBody k.data ++ '"' :: (':' :: (printJ v ++ (printEntries fs ++ rest)))) := by
        rw [printEntry_cons]
        simp
      rw [hcons, trimWs_not_ws '"' _ (by decide)]
      show (if '"' = '\x7d' then
          some (Jv.jobj [], escBody k.data ++ '"' :: (':' :: (printJ v ++ (printEntries fs ++ rest))))
        else (parseEntries f2
            ('"' :: (escBody k.data ++ '"' :: (':' :: (printJ v ++ (printEntries fs ++ rest)))))).map
          (fun p => (Jv.jobj (buildObj p.1), p.2))) = some (Jv.jobj ((k, v) :: fs), rest)
      rw [if_neg (by decide), ← hcons]
      have hlen : (printEntry (k, v)).length + (printEntries fs).length < f2 := by
        have h2 : printJ (Jv.jobj ((k, v) :: fs))
            = '\x7b' :: (printEntry (k, v) ++ printEntries fs) := rfl
        rw [h2] at hf
        simp only [List.length_cons, List.length_append] at hf
        omega
      rw [rt_entries k v fs f2 rest hw hlen]
      show some (Jv.jobj (buildObj ((k, v) :: fs)), rest) = some (Jv.jobj ((k, v) :: fs), rest)
      rw [buildObj_nodup _ hw]
termination_by v _ _ _ _ _ => sizeOf v
decreasing_by all_goals (simp_wf; omega)

theorem rt_items : ∀ (x : Jv) (xs : List Jv) (f : Nat) (rest : List Char),
    wfArr (x :: xs) = true → (printJ x).length + (printItems xs).length < f →
    parseItems f (printJ x ++ printItems xs ++ rest) = some (x :: xs, rest)
  | x, [], f, rest, hw, hf => by
    have hwx : wfJ x = true := by
      simp only [wfArr, Bool.and_eq_true] at hw
      exact hw.1
    cases f with
    | zero => exact absurd hf (Nat.not_lt_zero _)
    | succ f2 =>
      rw [parseItems_succ]
      have hpx : (printJ x).length < f2 := by
        simp only [printItems, List.length_singleton] at hf
        omega
      have hv := rt_val x f2 (printItems [] ++ rest) hwx hpx rfl
      rw [show printJ x ++ printItems [] ++ rest = printJ x ++ (printItems [] ++ rest)
        from by simp, hv]
      rfl
  | x, y :: ys, f, rest, hw, hf => by
    have hwx : wfJ x = true ∧ wfArr (y :: ys) = true := by
      simpa [wfArr, Bool.and_eq_true] using hw
    cases f with
    | zero => exact absurd hf (Nat.not_lt_zero _)
    | succ f2 =>
      rw [parseItems_succ]
      have hpilen := printItems_len_pos (y :: ys)
      have hpx : (printJ x).length < f2 := by omega
      have hv := rt_val x f2 (printItems (y :: ys) ++ rest) hwx.1 hpx rfl
      rw [show printJ x ++ printItems (y :: ys) ++ rest
          = printJ x ++ (printItems (y :: ys) ++ rest) from by simp, hv]
      have hlen2 : (printJ y).length + (printItems ys).length < f2 := by
        have h3 : printItems (y :: ys) = ',' :: (printJ y ++ printItems ys) := rfl
        rw [h3] at hf
        simp only [List.length_cons, List.length_append] at hf
        have := printJ_len_pos x
        omega
      obtain ⟨c, t, hshape, hws, _, _⟩ := printJ_head y
      show (parseItems f2 (trimWs ((printJ y ++ printItems ys) ++ rest))).map
          (fun p => (x :: p.1, p.2)) = some (x :: y :: ys, rest)
      have htrim : trimWs ((printJ y ++ printItems ys) ++ rest)
          = (printJ y ++ printItems ys) ++ rest := by
        rw [hshape]
        exact trimWs_not_ws c ((t ++ printItems ys) ++ rest) hws
      rw [htrim, rt_items y ys f2 rest hwx.2 hlen2]
      rfl
termination_by x xs _ _ _ _ => sizeOf x + sizeOf xs + 1
decreasing_by all_goals (simp_wf; omega)

theorem rt_entries : ∀ (k : String) (v : Jv) (fs : List (String × Jv)) (f : Nat)
    (rest : List Char),
    wfObj ((k, v) :: fs) = true →
    (printEntry (k, v)).length + (printEntries fs).length < f →
    parseEntries f (printEntry (k, v) ++ printEntries fs ++ rest) = some ((k, v) :: fs, rest)
  | k, v, [], f, rest, hw, hf => by
    have hw2 : wfJ v = true := by
      simp only [wfObj, Bool.and_eq_true] at hw
      exact hw.1.2
    cases f with
    | zero => exact absurd hf (Nat.not_lt_zero _)
    | succ f2 =>
      have hcons : printEntry (k, v) ++ printEntries [] ++ rest
          = '"' :: (escBody k.data ++ '"' :: (':' :: (printJ v ++ (printEntries [] ++ rest)))) := by
        rw [printEntry_cons]
        simp
      rw [hcons, parseEntries_key, parseStrBody_escBody]
      show (match parseVal f2 (trimWs (printJ v ++ (printEntries [] ++ rest))) with
        | none => none
        | some (v2, r3) =>
          match trimWs r3 with
          | ',' :: r4 =>
            (parseEntries f2 (trimWs r4)).map (fun p => ((⟨k.data⟩, v2) :: p.1, p.2))
          | '\x7d' :: r4 => some ([(⟨k.data⟩, v2)], r4)
          | _ => none) = some ((k, v) :: [], rest)
      obtain ⟨c, t, hshape, hws, _, _⟩ := printJ_head v
      have htrim : trimWs (printJ v ++ (printEntries [] ++ rest))
          = printJ v ++ (printEntries [] ++ rest) := by
        rw [hshape]
        exact trimWs_not_ws c (t ++ (printEntries [] ++ rest)) hws
      have hpe : (printEntry (k, v)).length = (printStr k).length + 1 + (printJ v).length := by
        simp [printEntry]
        omega
      have hvlen : (printJ v).length < f2 := by
        simp only [printEntries, List.length_singleton] at hf
        omega
      rw [htrim, rt_val v f2 (printEntries [] ++ rest) hw2 hvlen rfl]
      rfl
  | k, v, (g1, g2) :: gs, f, rest, hw, hf => by
    have hw2 : wfJ v = true ∧ wfObj ((g1, g2) :: gs) = true := by
      have hc : wfObj ((k, v) :: (g1, g2) :: gs)
          = (!hasKeyJ k ((g1, g2) :: gs) && wfJ v && wfObj ((g1, g2) :: gs)) := rfl
      rw [hc, Bool.and_eq_true, Bool.and_eq_true] at hw
      exact ⟨hw.1.2, hw.2⟩
    cases f with
    | zero => exact absurd hf (Nat.not_lt_zero _)
    | succ f2 =>
      have hcons : printEntry (k, v) ++ printEntries ((g1, g2) :: gs) ++ rest
          = '"' :: (escBody k.data ++ '"'
            :: (':' :: (printJ v ++ (printEntries ((g1, g2) :: gs) ++ rest)))) := by
        rw [printEntry_cons]
        simp
      rw [hcons, parseEntries_key, parseStrBody_escBody]
      show (match parseVal f2 (trimWs (printJ v ++ (printEntries ((g1, g2) :: gs) ++ rest))) with
        | none => none
        | some (v2, r3) =>
          match trimWs r3 with
          | ',' :: r4 =>
            (parseEntries f2 (trimWs r4)).map (fun p => ((⟨k.data⟩, v2) :: p.1, p.2))
          | '\x7d' :: r4 => some ([(⟨k.data⟩, v2)], r4)
          | _ => none) = some ((k, v) :: (g1, g2) :: gs, rest)
      obtain ⟨c, t, hshape, hws, _, _⟩ := printJ_head v
      have htrim : trimWs (printJ v ++ (printEntries ((g1, g2) :: gs) ++ rest))
          = printJ v ++ (printEntries ((g1, g2) :: gs) ++ rest) := by
        rw [hshape]
        exact trimWs_not_ws c (t ++ (printEntries ((g1, g2) :: gs) ++ rest)) hws
      have hpe : (printEntry (k, v)).length = (printStr k).length + 1 + (printJ v).length := by
        simp [printEntry]
        omega
      have hps : 2 ≤ (printStr k).length := by
        simp [printStr]
      have hpes := printEntries_len_pos ((g1, g2) :: gs)
      have hvlen : (printJ v).length < f2 := by omega
      rw [htrim, rt_val v f2 (printEntries ((g1, g2) :: gs) ++ rest) hw2.1 hvlen rfl]
      show (parseEntries f2 (trimWs ((printEntry (g1, g2) ++ printEntries gs) ++ rest))).map
          (fun p => ((⟨k.data⟩, v) :: p.1, p.2)) = some ((k, v) :: (g1, g2) :: gs, rest)
      have htrim2 : trimWs ((printEntry (g1, g2) ++ printEntries gs) ++ rest)
          = (printEntry (g1, g2) ++ printEntries gs) ++ rest := by
        rw [printEntry_cons]
        exact trimWs_not_ws '"'
          ((escBody g1.data ++ '"' :: (':' :: printJ g2) ++ printEntries gs) ++ rest)
          (by decide)
      have hlen3 : (printEntry (g1, g2)).length + (printEntries gs).length < f2 := by
        have h3 : printEntries ((g1, g2) :: gs)
            = ',' :: (printEntry (g1, g2) ++ printEntries gs) := rfl
        rw [h3] at hf
        simp only [List.length_cons, List.length_append] at hf
        omega
      rw [htrim2, rt_entries g1 g2 gs f2 rest hw2.2 hlen3]
      rfl
termination_by _ v fs _ _ _ _ => sizeOf v + sizeOf fs + 1
decreasing_by all_goals (simp_wf; omega)
end

theorem jsonParse_printJ (v : Jv) (hw : wfJ v = true) :
    jsonParse ⟨printJ v⟩ = some v := by
  unfold jsonParse
  have h : parseVal ((printJ v).length + 1) (printJ v ++ []) = some (v, []) :=
    rt_val v ((printJ v).length + 1) [] hw (by omega) rfl
  rw [List.append_nil] at h
  rw [show (String.mk (printJ v)).data = printJ v from rfl, h]
  rfl

/-! ### The library codec: `safeJsonParse` and `safeSerialize`

These two functions are the shallow embedding of src/index.ts lines 84-135
and 141-176.  The host primitives they call are the models above. -/

/-- The prototype-pollution denylist of `safeJsonParse` (lines 108-111). -/
def dangerousKey (k : String) : Bool :=
  k == "__proto__" || k == "constructor" || k == "prototype"

/-- Shallow embedding of `safeJsonParse` (src/index.ts lines 84-135).
The `catch` branch returns the raw string.  The non-plain-object rejection
branch (lines 89-97) cannot fire in the model because `JSON.parse` output
is always null, a primitive, an array, or a plain object — which is also
true of the real `JSON.parse`.  The sanitization branch (lines 100-128)
copies the non-denylisted own keys, in property order, into a fresh
object. -/
def safeJsonParse (value : String) : Jv :=
  match jsonParse value with
  | none => .jstr value
  | some parsed =>
    match parsed with
    | .jobj fs =>
      if fs.any (fun kv => dangerousKey kv.1) then
        .jobj (fs.filter (fun kv => !dangerousKey kv.1))
      else .jobj fs
    | v => v

/-- A JavaScript runtime value as the hook reads it from the form state:
JSON-style data plus `undefined` and non-plain objects.  A non-plain object
(`Date`, `RegExp`, ...) carries its `String(value)` form and the JSON value
`JSON.stringify` serializes it as (a `Date` stringifies through its `toJSON`
to its ISO string; a `RegExp` has no enumerable own properties and
stringifies as the empty object). -/
inductive JSVal where
  | undef
  | jsnull
  | jsbool (b : Bool)
  | jsnum (n : JNum)
  | jsstr (s : String)
  | jsarr (xs : List JSVal)
  | jsobj (fs : List (String × JSVal))
  | nonPlain (strForm : String) (jsonForm : Jv)

mutual
/-- Model of `JSON.stringify` as a JSON value: `none` for a top-level
`undefined`; inside containers, `undefined` array elements serialize as
`null` and `undefined` object members are dropped. -/
def JSVal.toJson : JSVal → Option Jv
  | .undef => none
  | .jsnull => some .jnull
  | .jsbool b => some (.jbool b)
  | .jsnum n => some (.jnum n)
  | .jsstr s => some (.jstr s)
  | .jsarr xs => some (.jarr (arrJson xs))
  | .jsobj fs => some (.jobj (objJson fs))
  | .nonPlain _ j => some j
def arrJson : List JSVal → List Jv
  | [] => []
  | x :: xs =>
    (match JSVal.toJson x with
      | some j => j
      | none => .jnull) :: arrJson xs
def objJson : List (String × JSVal) → List (String × Jv)
  | [] => []
  | (k, v) :: fs =>
    match JSVal.toJson v with
    | some j => (k, j) :: objJson fs
    | none => objJson fs
end

/-- Model of `JSON.stringify` to a string.  On inductive values the
serializer cannot throw: a self-referential structure — the documented
failure case — is not expressible as an inductive value, so the `catch`
branches of `safeSerialize` are unreachable in the model. -/
def jsonStringify (v : JSVal) : Option String :=
  (JSVal.toJson v).map (fun j => (⟨printJ j⟩ : String))

/-- Shallow embedding of `safeSerialize` (src/index.ts lines 141-176):
`null` first, then non-objects via `String(value)`, arrays and plain
objects via `JSON.stringify` under try/catch (the catch warns and returns
`""`), any other object type via `String(value)`. -/
def safeSerialize (value : JSVal) : String :=
  match value with
  | .jsnull => ""
  | .undef => "undefined"
  | .jsbool b => if b then "true" else "false"
  | .jsnum n => ⟨printNum n⟩
  | .jsstr s => s
  | .jsarr xs =>
    match jsonStringify (.jsarr xs) with
    | some s => s
    | none => ""
  | .jsobj fs =>
    match jsonStringify (.jsobj fs) with
    | some s => s
    | none => ""
  | .nonPlain strForm _ => strForm

mutual
/-- A parseable JSON value seen as the runtime value it denotes. -/
def Jv.toJS : Jv → JSVal
  | .jnull => .jsnull
  | .jbool b => .jsbool b
  | .jnum n => .jsnum n
  | .jstr s => .jsstr s
  | .jarr xs => .jsarr (arrToJS xs)
  | .jobj fs => .jsobj (objToJS fs)
def arrToJS : List Jv → List JSVal
  | [] => []
  | x :: xs => Jv.toJS x :: arrToJS xs
def objToJS : List (String × Jv) → List (String × JSVal)
  | [] => []
  | (k, v) :: fs => (k, Jv.toJS v) :: objToJS fs
end

mutual
theorem toJson_toJS : ∀ v : Jv, (Jv.toJS v).toJson = some v
  | .jnull => rfl
  | .jbool b => rfl
  | .jnum n => rfl
  | .jstr s => rfl
  | .jarr xs => by
    show some (Jv.jarr (arrJson (arrToJS xs))) = some (Jv.jarr xs)
    rw [arrJson_arrToJS xs]
  | .jobj fs => by
    show some (Jv.jobj (objJson (objToJS fs))) = some (Jv.jobj fs)
    rw [objJson_objToJS fs]
theorem arrJson_arrToJS : ∀ xs : List Jv, arrJson (arrToJS xs) = xs
  | [] => rfl
  | x :: xs => by
    show (match (Jv.toJS x).toJson with | some j => j | none => .jnull)
        :: arrJson (arrToJS xs) = x :: xs
    rw [toJson_toJS x, arrJson_arrToJS xs]
theorem objJson_objToJS : ∀ fs : List (String × Jv), objJson (objToJS fs) = fs
  | [] => rfl
  | (k, v) :: fs => by
    show (match (Jv.toJS v).toJson with
      | some j => (k, j) :: objJson (objToJS fs)
      | none => objJson (objToJS fs)) = (k, v) :: fs
    rw [toJson_toJS v, objJson_objToJS fs]
end

/-! ### URLSearchParams model and `searchParamsToString` -/

/-- Ordered multi-valued query mapping, as a `URLSearchParams` holds it. -/
abbrev Params := List (String × String)

/-- Model of `URLSearchParams.delete(name)`: remove every entry of the key. -/
def deleteParam (k : String) (p : Params) : Params := p.filter (fun kv => !(kv.1 == k))

/-- Model of `URLSearchParams.set(name, value)`: overwrite the first entry
of the key in place, drop later duplicates, append if the key is absent. -/
def setParam (k v : String) : Params → Params
  | [] => [(k, v)]
  | (k2, v2) :: rest =>
    if k2 = k then (k, v) :: deleteParam k rest else (k2, v2) :: setParam k v rest

/-- All values stored under a key, in order (`URLSearchParams.getAll`). -/
def getAllParam (k : String) (p : Params) : List String :=
  (p.filter (fun kv => kv.1 == k)).map (fun kv => kv.2)

def hexDigU (n : Nat) : Char :=
  if n < 10 then Char.ofNat (48 + n) else Char.ofNat (55 + n)

/-- UTF-8 bytes of a character. -/
def utf8Bytes (c : Char) : List Nat :=
  let v := c.toNat
  if v < 128 then [v]
  else if v < 2048 then [192 + v / 64, 128 + v % 64]
  else if v < 65536 then [224 + v / 4096, 128 + v / 64 % 64, 128 + v % 64]
  else [240 + v / 262144, 128 + v / 4096 % 64, 128 + v / 64 % 64, 128 + v % 64]

/-- The `application/x-www-form-urlencoded` escape of one character, as
`URLSearchParams.toString` produces it. -/
def formEncChar (c : Char) : List Char :=
  if c.isAlphanum || c = '*' || c = '-' || c = '.' || c = '_' then [c]
  else if c = ' ' then ['+']
  else (utf8Bytes c).flatMap (fun b => ['%', hexDigU (b / 16), hexDigU (b % 16)])

def formEnc (s : String) : String := ⟨s.data.flatMap formEncChar⟩

/-- One `k=v` pair of the canonical string form. -/
def pairString (kv : String × String) : String := formEnc kv.1 ++ "=" ++ formEnc kv.2

/-- Shallow embedding of `searchParamsToString` (src/index.ts lines
181-183): the canonical `URLSearchParams.toString()` form, `&`-separated
form-url-encoded pairs. -/
def searchParamsToString : Params → String
  | [] => ""
  | [kv] => pairString kv
  | kv :: rest => pairString kv ++ "&" ++ searchParamsToString rest

/-! ### The `useSyncUrl` hook: hydration and publication -/

/-- The refs of `useSyncUrl` (src/index.ts lines 197-204). -/
structure HookState where
  firstRender : Bool
  lastUrlParams : String
  isUpdatingFromUrl : Bool

/-- The restored-values mapping the hydration effect builds from the URL
snapshot (src/index.ts lines 221-234): entries in order, excluded keys
skipped, empty values skipped, the rest decoded with `safeJsonParse`; a
duplicate key overwrites its earlier value in place, as JavaScript property
assignment does. -/
def restoredValuesOf (excludeFields : List String) (sp : Params) : List (String × Jv) :=
  sp.foldl (fun acc kv =>
    if excludeFields.contains kv.1 then acc
    else if kv.2 ≠ "" then upsertJ kv.1 (safeJsonParse kv.2) acc
    else acc) []

/-- One pass of the hydration effect (src/index.ts lines 210-253) over an
observed snapshot: the updated refs, and the mapping passed to `reset`
(`none` when `reset` is not called).  In JavaScript, assigning the literal
key `__proto__` on the accumulator object hits the prototype setter; the
model keys uniformly (no claim depends on that corner). -/
def hydrate (excludeFields : List String) (sp : Params) (s : HookState) :
    HookState × Option (List (String × Jv)) :=
  let currentUrlParams := searchParamsToString sp
  if s.firstRender = false ∧ currentUrlParams = s.lastUrlParams then (s, none)
  else
    let s1 : HookState := { s with lastUrlParams := currentUrlParams }
    let restored := restoredValuesOf excludeFields sp
    if restored.length > 0 then
      ({ s1 with isUpdatingFromUrl := true, firstRender := false }, some restored)
    else
      ({ s1 with firstRender := false }, none)

/-- The empty-value test of the publication effect (src/index.ts line 287):
`value === undefined || value === null || value === ""`. -/
def isEmptyVal : JSVal → Bool
  | .undef => true
  | .jsnull => true
  | .jsstr s => s == ""
  | _ => false

/-- The debounce callback body before the change check (src/index.ts lines
268-299): clone the snapshot, delete every excluded field unconditionally,
then fold the form values over the copy — excluded fields skipped, empty
values delete the key, a non-empty serialization sets it and an empty one
deletes it.  The sensitive-field warning (line 285) and the URL-length
warning (lines 301-307) are console diagnostics without effect on state and
are not modelled. -/
def publishParams (excludeFields : List String) (sp : Params)
    (values : List (String × JSVal)) : Params :=
  let newParams := excludeFields.foldl (fun p f => deleteParam f p) sp
  values.foldl (fun p kv =>
    if excludeFields.contains kv.1 then p
    else if isEmptyVal kv.2 then deleteParam kv.1 p
    else
      let stringValue := safeSerialize kv.2
      if stringValue ≠ "" then setParam kv.1 stringValue p
      else deleteParam kv.1 p) newParams

/-- The change-detection commit step (src/index.ts lines 309-314): the new
Last-Known string, and the params passed to `setSearchParams` (`none` when
the canonical string is unchanged, in which case no sink call happens). -/
def publishStep (excludeFields : List String) (sp : Params)
    (values : List (String × JSVal)) (lastUrlParams : String) : String × Option Params :=
  let newParams := publishParams excludeFields sp values
  let newUrlString := searchParamsToString newParams
  if newUrlString ≠ lastUrlParams then (newUrlString, some newParams)
  else (lastUrlParams, none)

/-- Publication-side machine state for the debounce model: the external
snapshot, the Last-Known string, the guard flags, the single pending timer
(carrying the form-value snapshot its callback closed over), and the
transcript of `setSearchParams` calls. -/
structure PubState where
  sp : Params
  lastUrlParams : String
  firstRender : Bool
  isUpdatingFromUrl : Bool
  pending : Option (List (String × JSVal))
  sink : List Params

/-- The publication effect observing one form-value change (src/index.ts
lines 256-268): guarded no-op; otherwise the previous timer is cleared and
a new one is scheduled over the current values. -/
def observeChange (s : PubState) (values : List (String × JSVal)) : PubState :=
  if s.isUpdatingFromUrl || s.firstRender then s
  else { s with pending := some values }

/-- The debounce timer firing (src/index.ts lines 268-315): run the
publication body on the captured snapshot; on commit the sink receives the
new params and the external snapshot becomes them. -/
def fireTimer (excludeFields : List String) (s : PubState) : PubState :=
  match s.pending with
  | none => s
  | some values =>
    let r := publishStep excludeFields s.sp values s.lastUrlParams
    match r.2 with
    | some p =>
      { s with sp := p, lastUrlParams := r.1, pending := none, sink := s.sink ++ [p] }
    | none => { s with lastUrlParams := r.1, pending := none }

/-- One debounce window: a burst of observed changes, then the timer fires
once (each change cancels and replaces the previously scheduled timer). -/
def debounceWindow (excludeFields : List String) (s : PubState)
    (changes : List (List (String × JSVal))) : PubState :=
  fireTimer excludeFields (changes.foldl observeChange s)

/-! ### Params lemmas -/

theorem getAllParam_cons (k k2 v : String) (rest : Params) :
    getAllParam k ((k2, v) :: rest)
      = if (k2 == k) = true then v :: getAllParam k rest else getAllParam k rest := by
  simp only [getAllParam, List.filter_cons]
  split <;> simp

theorem deleteParam_cons (k k2 v : String) (rest : Params) :
    deleteParam k ((k2, v) :: rest)
      = if (k2 == k) = true then deleteParam k rest else (k2, v) :: deleteParam k rest := by
  simp only [deleteParam, List.filter_cons]
  split <;> simp_all

theorem getAll_delete_ne (k k2 : String) (p : Params) (h : k ≠ k2) :
    getAllParam k (deleteParam k2 p) = getAllParam k p := by
  induction p with
  | nil => rfl
  | cons kv rest ih =>
    obtain ⟨k3, v3⟩ := kv
    rw [deleteParam_cons, getAllParam_cons]
    by_cases h3 : k3 = k2
    · have h4 : (k3 == k) = false := by
        simp only [beq_eq_false_iff_ne]
        intro h5
        exact h (h5 ▸ h3 ▸ rfl)
      rw [if_pos (by simp [h3]), if_neg (by simp [h4]), ih]
    · rw [if_neg (by simp [h3]), getAllParam_cons]
      by_cases h5 : k3 = k
      · rw [if_pos (by simp [h5]), if_pos (by simp [h5]), ih]
      · rw [if_neg (by simp [h5]), if_neg (by simp [h5]), ih]

theorem getAll_delete_self (k : String) (p : Params) :
    getAllParam k (deleteParam k p) = [] := by
  induction p with
  | nil => rfl
  | cons kv rest ih =>
    obtain ⟨k3, v3⟩ := kv
    rw [deleteParam_cons]
    by_cases h3 : k3 = k
    · rw [if_pos (by simp [h3]), ih]
    · rw [if_neg (by simp [h3]), getAllParam_cons, if_neg (by simp [h3]), ih]

theorem getAll_set_ne (k k2 : String) (v : String) (p : Params) (h : k ≠ k2) :
    getAllParam k (setParam k2 v p) = getAllParam k p := by
  induction p with
  | nil =>
    show getAllParam k [(k2, v)] = getAllParam k []
    rw [getAllParam_cons, if_neg (by simp [Ne.symm h])]
  | cons kv rest ih =>
    obtain ⟨k3, v3⟩ := kv
    by_cases h3 : k3 = k2
    · rw [setParam, if_pos h3, getAllParam_cons, if_neg (by simp [Ne.symm h]),
        getAllParam_cons]
      have h4 : (k3 == k) = false := by
        simp only [beq_eq_false_iff_ne]
        intro h5
        exact h (h5 ▸ h3 ▸ rfl)
      rw [if_neg (by simp [h4]), getAll_delete_ne k k2 rest h]
    · rw [setParam, if_neg h3, getAllParam_cons, getAllParam_cons]
      by_cases h5 : k3 = k
      · rw [if_pos (by simp [h5]), if_pos (by simp [h5]), ih]
      · rw [if_neg (by simp [h5]), if_neg (by simp [h5]), ih]

theorem getAll_set_self (k v : String) (p : Params) :
    getAllParam k (setParam k v p) = [v] := by
  induction p with
  | nil =>
    show getAllParam k [(k, v)] = [v]
    rw [getAllParam_cons, if_pos (by simp)]
    rfl
  | cons kv rest ih =>
    obtain ⟨k3, v3⟩ := kv
    by_cases h3 : k3 = k
    · rw [setParam, if_pos h3, getAllParam_cons, if_pos (by simp), getAll_delete_self]
    · rw [setParam, if_neg h3, getAllParam_cons, if_neg (by simp [h3]), ih]

theorem delete_id (k : String) (p : Params) (h : getAllParam k p = []) :
    deleteParam k p = p := by
  induction p with
  | nil => rfl
  | cons kv rest ih =>
    obtain ⟨k3, v3⟩ := kv
    rw [getAllParam_cons] at h
    by_cases h3 : k3 = k
    · rw [if_pos (by simp [h3])] at h
      simp at h
    · rw [if_neg (by simp [h3])] at h
      rw [deleteParam_cons, if_neg (by simp [h3]), ih h]

theorem set_id (k v : String) (p : Params) (h : getAllParam k p = [v]) :
    setParam k v p = p := by
  induction p with
  | nil => simp [getAllParam] at h
  | cons kv rest ih =>
    obtain ⟨k3, v3⟩ := kv
    rw [getAllParam_cons] at h
    by_cases h3 : k3 = k
    · rw [if_pos (by simp [h3])] at h
      rw [List.cons.injEq] at h
      rw [setParam, if_pos h3, h.1, h3, delete_id k rest h.2]
    · rw [if_neg (by simp [h3])] at h
      rw [setParam, if_neg h3, ih h]

/-! ### Characterization of a Publication cycle -/

/-- The excluded-field sweep of the debounce callback (lines 272-275). -/
def deleteExcluded (excludeFields : List String) (sp : Params) : Params :=
  excludeFields.foldl (fun p f => deleteParam f p) sp

/-- The form-value fold of the debounce callback (lines 277-299). -/
def applyValues (excludeFields : List String) (values : List (String × JSVal))
    (p : Params) : Params :=
  values.foldl (fun p kv =>
    if excludeFields.contains kv.1 then p
    else if isEmptyVal kv.2 then deleteParam kv.1 p
    else
      let stringValue := safeSerialize kv.2
      if stringValue ≠ "" then setParam kv.1 stringValue p
      else deleteParam kv.1 p) p

theorem publishParams_eq (ex : List String) (sp : Params) (vs : List (String × JSVal)) :
    publishParams ex sp vs = applyValues ex vs (deleteExcluded ex sp) := rfl

/-- The entries a key holds after one Publication cycle, as a function of
its form value: deleted when empty-ish or serialized to the empty string,
otherwise exactly the one serialized value. -/
def pubTarget (v : JSVal) : List String :=
  if isEmptyVal v then []
  else if safeSerialize v ≠ "" then [safeSerialize v]
  else []

theorem contains_cons_elim (f : String) (ex : List String) (k : String)
    (h : (f :: ex).contains k = true) : k = f ∨ ex.contains k = true := by
  simp only [List.contains_cons, Bool.or_eq_true, beq_iff_eq] at h
  exact h

theorem contains_cons_false (f : String) (ex : List String) (k : String)
    (h : (f :: ex).contains k = false) : k ≠ f ∧ ex.contains k = false := by
  simp only [List.contains_cons, Bool.or_eq_false_iff, beq_eq_false_iff_ne] at h
  exact h

theorem getAll_deleteExcluded_not (ex : List String) (k : String) :
    ∀ sp, ex.contains k = false →
      getAllParam k (deleteExcluded ex sp) = getAllParam k sp := by
  induction ex with
  | nil => intro sp _; rfl
  | cons f ex2 ih =>
    intro sp h
    obtain ⟨hkf, h2⟩ := contains_cons_false f ex2 k h
    show getAllParam k (deleteExcluded ex2 (deleteParam f sp)) = getAllParam k sp
    rw [ih (deleteParam f sp) h2, getAll_delete_ne k f sp hkf]

theorem getAll_deleteExcluded_mem (ex : List String) (k : String) :
    ∀ sp, ex.contains k = true → getAllParam k (deleteExcluded ex sp) = [] := by
  induction ex with
  | nil => intro sp h; simp [List.contains] at h
  | cons f ex2 ih =>
    intro sp h
    show getAllParam k (deleteExcluded ex2 (deleteParam f sp)) = []
    by_cases h2 : ex2.contains k = true
    · exact ih (deleteParam f sp) h2
    · rcases contains_cons_elim f ex2 k h with h3 | h3
      · subst h3
        rw [getAll_deleteExcluded_not ex2 k (deleteParam k sp) (by
          cases h4 : ex2.contains k
          · rfl
          · exact absurd h4 h2), getAll_delete_self]
      · exact absurd h3 h2

theorem applyValues_step_preserve (ex : List String) (kv : String × JSVal) (k : String)
    (p : Params) (h : kv.1 ≠ k) :
    getAllParam k ((fun p (kv : String × JSVal) =>
      if ex.contains kv.1 then p
      else if isEmptyVal kv.2 then deleteParam kv.1 p
      else
        let stringValue := safeSerialize kv.2
        if stringValue ≠ "" then setParam kv.1 stringValue p
        else deleteParam kv.1 p) p kv) = getAllParam k p := by
  beta_reduce
  by_cases h1 : ex.contains kv.1
  · simp only [if_pos h1]
  · rw [if_neg h1]
    by_cases h2 : isEmptyVal kv.2
    · rw [if_pos h2, getAll_delete_ne k kv.1 p (Ne.symm h)]
    · rw [if_neg h2]
      by_cases h3 : safeSerialize kv.2 ≠ ""
      · simp only [if_pos h3]
        rw [getAll_set_ne k kv.1 (safeSerialize kv.2) p (Ne.symm h)]
      · simp only [if_neg h3]
        rw [getAll_delete_ne k kv.1 p (Ne.symm h)]

theorem applyValues_getAll_skip (ex : List String) (vs : List (String × JSVal))
    (k : String) (h : ∀ kv ∈ vs, kv.1 ≠ k) :
    ∀ p, getAllParam k (applyValues ex vs p) = getAllParam k p := by
  induction vs with
  | nil => intro p; rfl
  | cons kv rest ih =>
    intro p
    show getAllParam k (applyValues ex rest _) = getAllParam k p
    rw [ih (fun kv2 hm => h kv2 (by simp [hm])) _,
      applyValues_step_preserve ex kv k p (h kv (by simp))]

theorem applyValues_getAll_excluded (ex : List String) (vs : List (String × JSVal))
    (k : String) (h : ex.contains k = true) :
    ∀ p, getAllParam k (applyValues ex vs p) = getAllParam k p := by
  induction vs with
  | nil => intro p; rfl
  | cons kv rest ih =>
    intro p
    show getAllParam k (applyValues ex rest _) = getAllParam k p
    rw [ih _]
    by_cases h1 : ex.contains kv.1 = true
    · show getAllParam k (if ex.contains kv.1 = true then p else _) = getAllParam k p
      rw [if_pos h1]
    · have hne : kv.1 ≠ k := by
        intro h2
        rw [h2] at h1
        exact h1 h
      exact applyValues_step_preserve ex kv k p hne

/-- Duplicate-free keys of a form-value mapping (a JavaScript object cannot
carry two fields of the same name). -/
def nodupKeysVals : List (String × JSVal) → Bool
  | [] => true
  | kv :: rest => !(rest.any (fun kv2 => kv2.1 == kv.1)) && nodupKeysVals rest

theorem applyValues_getAll_mem (ex : List String) (vs : List (String × JSVal))
    (k : String) (v : JSVal) :
    nodupKeysVals vs = true → (k, v) ∈ vs → ex.contains k = false →
    ∀ p, getAllParam k (applyValues ex vs p) = pubTarget v := by
  induction vs with
  | nil =>
    intro _ hmem
    exact absurd hmem (List.not_mem_nil _)
  | cons kv rest ih =>
    intro hnd hmem hex p
    have hnd2 : rest.any (fun kv2 => kv2.1 == kv.1) = false ∧ nodupKeysVals rest = true := by
      simp only [nodupKeysVals, Bool.and_eq_true, Bool.not_eq_true'] at hnd
      exact hnd
    rcases List.mem_cons.mp hmem with heq | hmem2
    · subst heq
      show getAllParam k (applyValues ex rest _) = pubTarget v
      have hskip : ∀ kv2 ∈ rest, kv2.1 ≠ k := by
        intro kv2 hm2 habs
        have h5 := hnd2.1
        rw [List.any_eq_false] at h5
        exact absurd (by simp [habs] : (kv2.1 == (k, v).1) = true) (h5 kv2 hm2)
      rw [applyValues_getAll_skip ex rest k hskip _]
      show getAllParam k (if ex.contains k = true then p else _) = pubTarget v
      rw [if_neg (by rw [hex]; exact fun h => nomatch h)]
      unfold pubTarget
      by_cases h2 : isEmptyVal v = true
      · rw [if_pos h2, if_pos h2, getAll_delete_self]
      · rw [if_neg h2, if_neg h2]
        by_cases h3 : safeSerialize v ≠ ""
        · simp only [if_pos h3]
          rw [getAll_set_self]
        · simp only [if_neg h3]
          rw [getAll_delete_self]
    · exact ih hnd2.2 hmem2 hex _

theorem publishParams_getAll_excluded (ex : List String) (sp : Params)
    (vs : List (String × JSVal)) (f : String) (h : ex.contains f = true) :
    getAllParam f (publishParams ex sp vs) = [] := by
  rw [publishParams_eq, applyValues_getAll_excluded ex vs f h _,
    getAll_deleteExcluded_mem ex f sp h]

theorem publishParams_getAll_frame (ex : List String) (sp : Params)
    (vs : List (String × JSVal)) (k : String)
    (h1 : ex.contains k = false) (h2 : ∀ kv ∈ vs, kv.1 ≠ k) :
    getAllParam k (publishParams ex sp vs) = getAllParam k sp := by
  rw [publishParams_eq, applyValues_getAll_skip ex vs k h2 _,
    getAll_deleteExcluded_not ex k sp h1]

theorem publishParams_getAll_mem (ex : List String) (sp : Params)
    (vs : List (String × JSVal)) (k : String) (v : JSVal)
    (hnd : nodupKeysVals vs = true) (hmem : (k, v) ∈ vs) (hex : ex.contains k = false) :
    getAllParam k (publishParams ex sp vs) = pubTarget v := by
  rw [publishParams_eq, applyValues_getAll_mem ex vs k v hnd hmem hex _]

theorem foldl_fixpoint {α β : Type} (f : β → α → β) (b : β) :
    ∀ l : List α, (∀ a ∈ l, f b a = b) → l.foldl f b = b := by
  intro l
  induction l with
  | nil => intro _; rfl
  | cons a t ih =>
    intro h
    rw [List.foldl_cons, h a (by simp)]
    exact ih (fun a2 hm => h a2 (by simp [hm]))

theorem deleteExcluded_fix (ex : List String) (p : Params)
    (h : ∀ f, ex.contains f = true → getAllParam f p = []) :
    deleteExcluded ex p = p := by
  unfold deleteExcluded
  apply foldl_fixpoint
  intro f hm
  exact delete_id f p (h f (List.elem_eq_true_of_mem hm))

theorem publishParams_idem (ex : List String) (sp : Params) (vs : List (String × JSVal))
    (hnd : nodupKeysVals vs = true) :
    publishParams ex (publishParams ex sp vs) vs = publishParams ex sp vs := by
  rw [publishParams_eq ex (publishParams ex sp vs) vs,
    deleteExcluded_fix _ _ (fun f hf => publishParams_getAll_excluded ex sp vs f hf)]
  unfold applyValues
  apply foldl_fixpoint
  intro kv hm
  beta_reduce
  by_cases h2 : ex.contains kv.1 = true
  · rw [if_pos h2]
  · rw [if_neg h2]
    obtain ⟨k, v⟩ := kv
    have hex : ex.contains k = false := by
      cases h3 : ex.contains k
      · rfl
      · exact absurd h3 h2
    have hval := publishParams_getAll_mem ex sp vs k v hnd hm hex
    by_cases h4 : isEmptyVal v = true
    · rw [if_pos h4]
      apply delete_id
      rw [hval]
      unfold pubTarget
      rw [if_pos h4]
    · rw [if_neg h4]
      by_cases h5 : safeSerialize v ≠ ""
      · simp only [if_pos h5]
        apply set_id
        rw [hval]
        unfold pubTarget
        rw [if_neg h4]
        simp only [if_pos h5]
      · simp only [if_neg h5]
        apply delete_id
        rw [hval]
        unfold pubTarget
        rw [if_neg h4]
        simp only [if_neg h5]

theorem publishStep_none_iff (ex : List String) (sp : Params)
    (vs : List (String × JSVal)) (last : String) :
    (publishStep ex sp vs last).2 = none
      ↔ searchParamsToString (publishParams ex sp vs) = last := by
  unfold publishStep
  by_cases h : searchParamsToString (publishParams ex sp vs) = last
  · rw [if_neg (fun hc => hc h)]
    exact ⟨fun _ => h, fun _ => rfl⟩
  · rw [if_pos h]
    exact ⟨fun h2 => Option.noConfusion h2, fun h2 => absurd h2 h⟩

/-! ### Hydration lemmas -/

theorem hasKeyJ_upsert (k f : String) (v : Jv) (l : List (String × Jv))
    (h1 : hasKeyJ f l = false) (h2 : k ≠ f) : hasKeyJ f (upsertJ k v l) = false := by
  induction l with
  | nil => simp [upsertJ, hasKeyJ, h2]
  | cons kv2 rest ih =>
    obtain ⟨k2, v2⟩ := kv2
    simp only [hasKeyJ, List.any_cons, Bool.or_eq_false_iff] at h1
    by_cases h3 : k2 = k
    · rw [upsertJ, if_pos h3]
      simp only [hasKeyJ, List.any_cons, Bool.or_eq_false_iff]
      exact ⟨by simp [h2], h1.2⟩
    · rw [upsertJ, if_neg h3]
      simp only [hasKeyJ, List.any_cons, Bool.or_eq_false_iff]
      exact ⟨h1.1, by simpa [hasKeyJ] using ih (by simpa [hasKeyJ] using h1.2)⟩

theorem restored_fold_no_excluded (ex : List String) (f : String) (h : ex.contains f = true) :
    ∀ (sp : Params) (acc : List (String × Jv)), hasKeyJ f acc = false →
      hasKeyJ f (sp.foldl (fun acc kv =>
        if ex.contains kv.1 then acc
        else if kv.2 ≠ "" then upsertJ kv.1 (safeJsonParse kv.2) acc
        else acc) acc) = false := by
  intro sp
  induction sp with
  | nil => intro acc hacc; exact hacc
  | cons kv rest ih =>
    intro acc hacc
    rw [List.foldl_cons]
    apply ih
    beta_reduce
    by_cases h1 : ex.contains kv.1 = true
    · rw [if_pos h1]
      exact hacc
    · rw [if_neg h1]
      have hne : kv.1 ≠ f := by
        intro h2
        rw [h2] at h1
        exact h1 h
      by_cases h2 : kv.2 = ""
      · rw [if_neg (fun hc => hc h2)]
        exact hacc
      · rw [if_pos h2]
        exact hasKeyJ_upsert kv.1 f (safeJsonParse kv.2) acc hacc hne

theorem restoredValues_excluded (ex : List String) (sp : Params) (f : String)
    (h : ex.contains f = true) : hasKeyJ f (restoredValuesOf ex sp) = false :=
  restored_fold_no_excluded ex f h sp [] rfl

theorem hydrate_reset_eq (ex : List String) (sp : Params) (s : HookState)
    (m : List (String × Jv)) (h : (hydrate ex sp s).2 = some m) :
    m = restoredValuesOf ex sp := by
  unfold hydrate at h
  by_cases h1 : s.firstRender = false ∧ searchParamsToString sp = s.lastUrlParams
  · rw [if_pos h1] at h
    exact absurd h (by simp)
  · rw [if_neg h1] at h
    by_cases h2 : (restoredValuesOf ex sp).length > 0
    · rw [if_pos h2] at h
      exact (Option.some_inj.mp h).symm
    · rw [if_neg h2] at h
      exact absurd h (by simp)

theorem hydrate_noop (ex : List String) (sp : Params) (s : HookState)
    (h1 : s.firstRender = false) (h2 : searchParamsToString sp = s.lastUrlParams) :
    hydrate ex sp s = (s, none) := by
  unfold hydrate
  rw [if_pos ⟨h1, h2⟩]

theorem hydrate_transition (ex : List String) (sp : Params) (s : HookState)
    (h : ¬(s.firstRender = false ∧ searchParamsToString sp = s.lastUrlParams)) :
    (hydrate ex sp s).1.lastUrlParams = searchParamsToString sp ∧
    (hydrate ex sp s).2 = (if (restoredValuesOf ex sp).length > 0
      then some (restoredValuesOf ex sp) else none) := by
  unfold hydrate
  rw [if_neg h]
  by_cases h2 : (restoredValuesOf ex sp).length > 0
  · rw [if_pos h2, if_pos h2]
    exact ⟨rfl, rfl⟩
  · rw [if_neg h2, if_neg h2]
    exact ⟨rfl, rfl⟩

/-! ### Debounce lemmas -/

theorem observeChange_free (s : PubState) (v : List (String × JSVal))
    (h1 : s.isUpdatingFromUrl = false) (h2 : s.firstRender = false) :
    observeChange s v = { s with pending := some v } := by
  unfold observeChange
  rw [h1, h2]
  rfl

theorem observe_fold_pending (l : List (List (String × JSVal))) :
    ∀ (s : PubState) (v : List (String × JSVal)),
      s.isUpdatingFromUrl = false → s.firstRender = false →
      (l ++ [v]).foldl observeChange s = { s with pending := some v } := by
  induction l with
  | nil =>
    intro s v h1 h2
    rw [List.nil_append, List.foldl_cons, List.foldl_nil, observeChange_free s v h1 h2]
  | cons c t ih =>
    intro s v h1 h2
    rw [List.cons_append, List.foldl_cons, observeChange_free s c h1 h2]
    exact ih { s with pending := some c } v h1 h2

/-! ### Support for the claim statements -/

/-- A container value: a JSON array or a plain object. -/
def isContainer : Jv → Bool
  | .jarr _ => true
  | .jobj _ => true
  | _ => false

/-- No denylisted key at the top level (the sanitizer's sweep is
top-level only). -/
def noDangerousTop : Jv → Bool
  | .jobj fs => fs.all (fun kv => !dangerousKey kv.1)
  | _ => true

/-- A boolean or number value. -/
def isBoolOrNum : Jv → Bool
  | .jbool _ => true
  | .jnum _ => true
  | _ => false

theorem any_eq_false_of_all_not {α : Type} (p : α → Bool) :
    ∀ l : List α, l.all (fun a => !p a) = true → l.any p = false := by
  intro l
  induction l with
  | nil => intro _; rfl
  | cons a t ih =>
    intro h
    simp only [List.all_cons, Bool.and_eq_true, Bool.not_eq_true'] at h
    simp only [List.any_cons, Bool.or_eq_false_iff]
    exact ⟨h.1, ih h.2⟩

theorem serialize_toJS_arr (xs : List Jv) :
    safeSerialize (Jv.toJS (.jarr xs)) = ⟨printJ (.jarr xs)⟩ := by
  show (match jsonStringify (.jsarr (arrToJS xs)) with | some s => s | none => "") = _
  rw [show jsonStringify (.jsarr (arrToJS xs)) = some ⟨printJ (.jarr xs)⟩ from by
    unfold jsonStringify
    rw [show JSVal.toJson (.jsarr (arrToJS xs)) = some (.jarr xs) from toJson_toJS (.jarr xs)]
    rfl]

theorem serialize_toJS_obj (fs : List (String × Jv)) :
    safeSerialize (Jv.toJS (.jobj fs)) = ⟨printJ (.jobj fs)⟩ := by
  show (match jsonStringify (.jsobj (objToJS fs)) with | some s => s | none => "") = _
  rw [show jsonStringify (.jsobj (objToJS fs)) = some ⟨printJ (.jobj fs)⟩ from by
    unfold jsonStringify
    rw [show JSVal.toJson (.jsobj (objToJS fs)) = some (.jobj fs) from toJson_toJS (.jobj fs)]
    rfl]

/-- The `setSearchParams` calls one timer firing emits: one on commit,
none otherwise. -/
def pubEmit (excludeFields : List String) (sp : Params)
    (values : List (String × JSVal)) (last : String) : List Params :=
  match (publishStep excludeFields sp values last).2 with
  | some p => [p]
  | none => []

theorem fireTimer_pending (ex : List String) (s : PubState) (v : List (String × JSVal)) :
    fireTimer ex { s with pending := some v }
      = (match (publishStep ex s.sp v s.lastUrlParams).2 with
        | some p =>
          { s with
            sp := p
            lastUrlParams := (publishStep ex s.sp v s.lastUrlParams).1
            pending := none
            sink := s.sink ++ [p] }
        | none =>
          { s with
            lastUrlParams := (publishStep ex s.sp v s.lastUrlParams).1
            pending := none }) := rfl

theorem pubEmit_length_le (ex : List String) (sp : Params)
    (v : List (String × JSVal)) (last : String) :
    (pubEmit ex sp v last).length ≤ 1 := by
  unfold pubEmit
  cases (publishStep ex sp v last).2 <;> simp

/-! ## The claims -/

/-- C1: for every field name `f` in `excludeFields`, the params a
Publication cycle commits hold no entry for `f`; and the restored-values
mapping a Hydration cycle passes to the merge-reset never has `f` as a key,
even when the snapshot carries a value for `f`. -/
theorem exclusion_invariant (ex : List String) (sp : Params) (vs : List (String × JSVal))
    (f : String) (hf : ex.contains f = true) :
    getAllParam f (publishParams ex sp vs) = [] ∧
    hasKeyJ f (restoredValuesOf ex sp) = false ∧
    (∀ (s : HookState) (m : List (String × Jv)),
      (hydrate ex sp s).2 = some m → hasKeyJ f m = false) := by
  refine ⟨publishParams_getAll_excluded ex sp vs f hf,
    restoredValues_excluded ex sp f hf, ?_⟩
  intro s m hm
  rw [hydrate_reset_eq ex sp s m hm]
  exact restoredValues_excluded ex sp f hf

/-- C1 witness: `password=secret123` in the URL never reaches the committed
params or the merge-reset mapping when `password` is excluded. -/
theorem exclusion_invariant_witness :
    getAllParam "password" (publishParams ["password"]
        [("password", "secret123"), ("name", "x")] [("name", JSVal.jsstr "y")]) = [] ∧
    hasKeyJ "password" (restoredValuesOf ["password"]
        [("password", "secret123"), ("name", "x")]) = false ∧
    hasKeyJ "password" [("name", Jv.jstr "x")] = false := by
  have h := exclusion_invariant ["password"] [("password", "secret123"), ("name", "x")]
      [("name", JSVal.jsstr "y")] "password" rfl
  exact ⟨h.1, h.2.1, h.2.2 ⟨true, "", false⟩ [("name", Jv.jstr "x")] rfl⟩

/-- C2: when the input JSON-parses to an object with a denylisted top-level
key, `safeJsonParse` returns the object holding exactly the non-denylisted
keys, in order, with their parsed values: every surviving entry is
non-denylisted, and every non-denylisted entry survives. -/
theorem sanitization_filter (s : String) (fs : List (String × Jv))
    (h1 : jsonParse s = some (.jobj fs))
    (h2 : fs.any (fun kv => dangerousKey kv.1) = true) :
    safeJsonParse s = .jobj (fs.filter (fun kv => !dangerousKey kv.1)) ∧
    (∀ kv ∈ fs.filter (fun kv => !dangerousKey kv.1), dangerousKey kv.1 = false) ∧
    (∀ kv ∈ fs, dangerousKey kv.1 = false →
      kv ∈ fs.filter (fun kv => !dangerousKey kv.1)) := by
  refine ⟨?_, ?_, ?_⟩
  · unfold safeJsonParse
    rw [h1]
    show (if fs.any (fun kv => dangerousKey kv.1) then
      Jv.jobj (fs.filter (fun kv => !dangerousKey kv.1)) else .jobj fs) = _
    rw [if_pos h2]
  · intro kv hm
    have h4 := (List.mem_filter.mp hm).2
    cases hd : dangerousKey kv.1
    · rfl
    · rw [hd] at h4
      exact Bool.noConfusion h4
  · intro kv hm hd
    exact List.mem_filter.mpr ⟨hm, by simp [hd]⟩

/-- C2 witness: the spec's example — the `__proto__` member is dropped,
`normalKey` survives with its parsed value. -/
theorem sanitization_filter_witness :
    safeJsonParse "\x7b\"__proto__\":\x7b\"isAdmin\":true\x7d,\"normalKey\":\"value\"\x7d"
      = Jv.jobj [("normalKey", Jv.jstr "value")] := by
  have h := sanitization_filter
      "\x7b\"__proto__\":\x7b\"isAdmin\":true\x7d,\"normalKey\":\"value\"\x7d"
      [("__proto__", Jv.jobj [("isAdmin", Jv.jbool true)]), ("normalKey", Jv.jstr "value")]
      rfl rfl
  exact h.1.trans (by rfl)

/-- C3 counterexample: the round-trip fails on a plain object whose only
key is `constructor` — a fully JSON-representable value: the sanitizer
drops the key on decode, so `decode (encode v) = \x7b\x7d ≠ v`. -/
theorem round_trip_counterexample :
    safeJsonParse (safeSerialize (Jv.toJS (.jobj [("constructor", .jnum ⟨5, 0⟩)])))
      = .jobj [] ∧
    Jv.jobj [] ≠ .jobj [("constructor", .jnum ⟨5, 0⟩)] := by
  refine ⟨rfl, ?_⟩
  intro h
  simp at h

/-- C3 (amended): for every well-formed container value — an array or a
plain object — with no denylisted top-level key,
`safeJsonParse (safeSerialize v) = v`. -/
theorem round_trip_amended (v : Jv) (h1 : isContainer v = true)
    (h2 : wfJ v = true) (h3 : noDangerousTop v = true) :
    safeJsonParse (safeSerialize (Jv.toJS v)) = v := by
  cases v with
  | jarr xs =>
    rw [serialize_toJS_arr]
    unfold safeJsonParse
    rw [jsonParse_printJ (.jarr xs) h2]
  | jobj fs =>
    rw [serialize_toJS_obj]
    unfold safeJsonParse
    rw [jsonParse_printJ (.jobj fs) h2]
    have h3b : fs.all (fun kv => !dangerousKey kv.1) = true := h3
    have ha : fs.any (fun kv => dangerousKey kv.1) = false :=
      any_eq_false_of_all_not (fun kv => dangerousKey kv.1) fs h3b
    show (if fs.any (fun kv => dangerousKey kv.1) then
      Jv.jobj (fs.filter (fun kv => !dangerousKey kv.1)) else .jobj fs) = _
    rw [if_neg (by simp [ha])]
  | jnull => exact Bool.noConfusion h1
  | jbool b => exact Bool.noConfusion h1
  | jnum n => exact Bool.noConfusion h1
  | jstr s => exact Bool.noConfusion h1

/-- C3 witness: a nested well-formed object round-trips exactly. -/
theorem round_trip_amended_witness :
    safeJsonParse (safeSerialize (Jv.toJS
        (.jobj [("a", Jv.jnum ⟨1, 0⟩), ("b", Jv.jarr [Jv.jstr "x"])])))
      = .jobj [("a", Jv.jnum ⟨1, 0⟩), ("b", Jv.jarr [Jv.jstr "x"])] :=
  round_trip_amended (.jobj [("a", Jv.jnum ⟨1, 0⟩), ("b", Jv.jarr [Jv.jstr "x"])])
    rfl rfl rfl

/-- C4: when structured parsing fails, `safeJsonParse` returns the raw
input unchanged as a string value. -/
theorem decode_total (s : String) (h : jsonParse s = none) :
    safeJsonParse s = .jstr s := by
  unfold safeJsonParse
  rw [h]

/-- C4 witness: malformed JSON degrades to the original string. -/
theorem decode_total_witness :
    safeJsonParse "\x7binvalid" = Jv.jstr "\x7binvalid" :=
  decode_total "\x7binvalid" rfl

/-- C5: the equations of `safeSerialize` — null to the empty string,
primitives to their canonical string form, arrays and plain objects to
their JSON serialization (which on inductive values never fails: the two
last conjuncts show the failure branch unreachable), any other object to
its native to-string form. -/
theorem encode_spec :
    safeSerialize .jsnull = "" ∧
    safeSerialize .undef = "undefined" ∧
    (∀ b, safeSerialize (.jsbool b) = if b then "true" else "false") ∧
    (∀ n, safeSerialize (.jsnum n) = ⟨printNum n⟩) ∧
    (∀ s, safeSerialize (.jsstr s) = s) ∧
    (∀ xs, safeSerialize (.jsarr xs) = ⟨printJ (.jarr (arrJson xs))⟩) ∧
    (∀ fs, safeSerialize (.jsobj fs) = ⟨printJ (.jobj (objJson fs))⟩) ∧
    (∀ st j, safeSerialize (.nonPlain st j) = st) ∧
    (∀ xs, jsonStringify (.jsarr xs) ≠ none) ∧
    (∀ fs, jsonStringify (.jsobj fs) ≠ none) :=
  ⟨rfl, rfl, fun _ => rfl, fun _ => rfl, fun _ => rfl, fun _ => rfl, fun _ => rfl,
    fun _ _ => rfl, fun _ h => Option.noConfusion h, fun _ h => Option.noConfusion h⟩

/-- C6 counterexample: two changes inside one window whose final snapshot
serializes back to the current canonical string produce zero sink calls,
not exactly one — the change check suppresses the commit. -/
theorem debounce_counterexample :
    (debounceWindow [] ⟨[("name", "x")], "name=x", false, false, none, []⟩
      [[("name", JSVal.jsstr "y")], [("name", JSVal.jsstr "x")]]).sink = [] := rfl

/-- C6 (amended): with the guards false, a window of observed changes ending
in `vlast` behaves as if only `vlast` had been scheduled — every earlier
timer is cancelled and the intermediate snapshots are discarded — and the
sink receives at most one call, derived from `vlast` alone (exactly one
when the canonical string changed, none otherwise). -/
theorem debounce_coalesce (ex : List String) (s : PubState)
    (changes : List (List (String × JSVal))) (vlast : List (String × JSVal))
    (h1 : s.isUpdatingFromUrl = false) (h2 : s.firstRender = false) :
    debounceWindow ex s (changes ++ [vlast])
      = fireTimer ex { s with pending := some vlast } ∧
    (debounceWindow ex s (changes ++ [vlast])).sink
      = s.sink ++ pubEmit ex s.sp vlast s.lastUrlParams ∧
    (debounceWindow ex s (changes ++ [vlast])).sink.length ≤ s.sink.length + 1 := by
  have he : debounceWindow ex s (changes ++ [vlast])
      = fireTimer ex { s with pending := some vlast } := by
    unfold debounceWindow
    rw [observe_fold_pending changes s vlast h1 h2]
  have hsink : (debounceWindow ex s (changes ++ [vlast])).sink
      = s.sink ++ pubEmit ex s.sp vlast s.lastUrlParams := by
    rw [he, fireTimer_pending]
    unfold pubEmit
    cases hr : (publishStep ex s.sp vlast s.lastUrlParams).2 with
    | none => exact (List.append_nil s.sink).symm
    | some p => rfl
  refine ⟨he, hsink, ?_⟩
  rw [hsink, List.length_append]
  have h3 := pubEmit_length_le ex s.sp vlast s.lastUrlParams
  omega

/-- C6 witness: a burst "a", "ab", then "abc" commits once, with the params
built from the final snapshot only. -/
theorem debounce_coalesce_witness :
    (debounceWindow [] ⟨[], "", false, false, none, []⟩
        ([[("q", JSVal.jsstr "a")], [("q", JSVal.jsstr "ab")]]
          ++ [[("q", JSVal.jsstr "abc")]])).sink
      = [[("q", "abc")]] := by
  have h := debounce_coalesce [] ⟨[], "", false, false, none, []⟩
      [[("q", JSVal.jsstr "a")], [("q", JSVal.jsstr "ab")]]
      [("q", JSVal.jsstr "abc")] rfl rfl
  exact h.2.1.trans (by rfl)

/-- C7: publication is idempotent — republishing the same form values over
the already-committed params reproduces them exactly (hence an identical
canonical string), the second cycle performs no sink call, and in general a
cycle's sink call is skipped exactly when the canonical string equals the
Last-Known Query String. -/
theorem publication_idempotent (ex : List String) (sp : Params)
    (vs : List (String × JSVal)) (hnd : nodupKeysVals vs = true) :
    publishParams ex (publishParams ex sp vs) vs = publishParams ex sp vs ∧
    publishStep ex (publishParams ex sp vs) vs
        (searchParamsToString (publishParams ex sp vs))
      = (searchParamsToString (publishParams ex sp vs), none) ∧
    (∀ last, (publishStep ex sp vs last).2 = none
      ↔ searchParamsToString (publishParams ex sp vs) = last) := by
  have hi := publishParams_idem ex sp vs hnd
  refine ⟨hi, ?_, fun last => publishStep_none_iff ex sp vs last⟩
  unfold publishStep
  rw [hi, if_neg (fun hc => hc rfl)]

/-- C7 witness: the second publication of `a := "2"` is a fixed point. -/
theorem publication_idempotent_witness :
    publishParams [] (publishParams [] [("a", "1")] [("a", JSVal.jsstr "2")])
        [("a", JSVal.jsstr "2")]
      = publishParams [] [("a", "1")] [("a", JSVal.jsstr "2")] ∧
    publishParams [] [("a", "1")] [("a", JSVal.jsstr "2")] = [("a", "2")] := by
  have h := publication_idempotent [] [("a", "1")] [("a", JSVal.jsstr "2")] rfl
  exact ⟨h.1, rfl⟩

/-- C8: a key neither excluded nor among the form values keeps exactly its
snapshot entries through a Publication cycle. -/
theorem frame_condition (ex : List String) (sp : Params) (vs : List (String × JSVal))
    (k : String) (h1 : ex.contains k = false) (h2 : ∀ kv ∈ vs, kv.1 ≠ k) :
    getAllParam k (publishParams ex sp vs) = getAllParam k sp :=
  publishParams_getAll_frame ex sp vs k h1 h2

/-- C8 witness: `unrelated=value` survives a cycle that changes only
`name`. -/
theorem frame_condition_witness :
    getAllParam "unrelated" (publishParams ["secret"]
      [("unrelated", "value"), ("name", "a")] [("name", JSVal.jsstr "b")]) = ["value"] := by
  have h := frame_condition ["secret"] [("unrelated", "value"), ("name", "a")]
      [("name", JSVal.jsstr "b")] "unrelated" rfl (by decide)
  exact h.trans rfl

/-- C9 counterexample: with an empty snapshot whose string form differs
from the Last-Known string, the pass updates the cache but applies no
merge-reset — the restored-values mapping is empty, so `reset` is never
called, against the claim that a differing string always proceeds to apply
the mapping. -/
theorem hydration_counterexample :
    searchParamsToString ([] : Params) ≠ "a=1" ∧
    hydrate [] ([] : Params) ⟨false, "a=1", false⟩ = (⟨false, "", false⟩, none) :=
  ⟨by decide, rfl⟩

/-- C9 (amended): on any observation after the first, string equality with
the Last-Known Query String makes hydration a no-op; any difference —
including pure reordering — updates the cache to the new string and
applies the merge-reset exactly when the restored-values mapping is
non-empty. -/
theorem hydration_change_detection (ex : List String) (sp : Params) (s : HookState)
    (h0 : s.firstRender = false) :
    (searchParamsToString sp = s.lastUrlParams → hydrate ex sp s = (s, none)) ∧
    (searchParamsToString sp ≠ s.lastUrlParams →
      (hydrate ex sp s).1.lastUrlParams = searchParamsToString sp ∧
      (hydrate ex sp s).2 = (if (restoredValuesOf ex sp).length > 0
        then some (restoredValuesOf ex sp) else none)) := by
  constructor
  · intro he
    exact hydrate_noop ex sp s h0 he
  · intro hne
    exact hydrate_transition ex sp s (fun hc => hne hc.2)

/-- C9 witness: a snapshot differing from the cache only in key order still
transitions — the cache takes the new string and the mapping is applied. -/
theorem hydration_change_detection_witness :
    (hydrate [] [("b", "2"), ("a", "1")] ⟨false, "a=1&b=2", false⟩).1.lastUrlParams
      = "b=2&a=1" ∧
    (hydrate [] [("b", "2"), ("a", "1")] ⟨false, "a=1&b=2", false⟩).2
      = some [("b", Jv.jnum ⟨2, 0⟩), ("a", Jv.jnum ⟨1, 0⟩)] := by
  have h := (hydration_change_detection [] [("b", "2"), ("a", "1")]
      ⟨false, "a=1&b=2", false⟩ rfl).2 (by decide)
  exact ⟨h.1.trans (by rfl), h.2.trans (by rfl)⟩

/-- C10: decoding a query value that JSON-parses to a boolean or a number
yields that boolean or number unconditionally — and through the hydration
build, a field restores to that typed value whatever its default was; no
default-value shape enters the computation. -/
theorem type_coercion (s : String) (v : Jv)
    (h1 : jsonParse s = some v) (h2 : isBoolOrNum v = true) :
    safeJsonParse s = v ∧
    ∀ f : String, s ≠ "" → restoredValuesOf [] [(f, s)] = [(f, v)] := by
  have hp : safeJsonParse s = v := by
    unfold safeJsonParse
    rw [h1]
    cases v with
    | jbool b => rfl
    | jnum n => rfl
    | jnull => exact Bool.noConfusion h2
    | jstr s2 => exact Bool.noConfusion h2
    | jarr xs => exact Bool.noConfusion h2
    | jobj fs => exact Bool.noConfusion h2
  refine ⟨hp, ?_⟩
  intro f hs
  unfold restoredValuesOf
  rw [List.foldl_cons, List.foldl_nil]
  rw [if_neg (fun hc => Bool.noConfusion hc), if_pos hs, hp]
  rfl

/-- C10 witness: "true" restores as a boolean, "99.99" as the number
99.99. -/
theorem type_coercion_witness :
    safeJsonParse "true" = Jv.jbool true ∧
    safeJsonParse "99.99" = Jv.jnum ⟨9999, 2⟩ ∧
    restoredValuesOf [] [("price", "99.99")] = [("price", Jv.jnum ⟨9999, 2⟩)] := by
  have ha := type_coercion "true" (Jv.jbool true) rfl rfl
  have hb := type_coercion "99.99" (Jv.jnum ⟨9999, 2⟩) rfl rfl
  exact ⟨ha.1, hb.1, hb.2 "price" (by decide)⟩
